import Mathlib

/-!
Verification of the depot_tools Windows toolchain cache
(`win_toolchain/get_toolchain_if_necessary.py`).

The script maintains a directory of installed toolchain versions, each named by
a content hash.  We embed the pure core of the script:

* `GetFileList` — normalized recursive file enumeration,
* `CalculateHash` — sidecar-accelerated content hashing,
* `RemoveUnusedToolchains` — cache eviction,
* the acquisition flow of `main` (download / verify / persist).

Modelling conventions:

* Python 2 `str` values are byte strings; we model them as `Str := List Nat`.
* File modification times are modelled as `Int` (only equality and order of
  mtimes are ever used by the script).
* The filesystem is a list of nodes (files with contents, or directories),
  each with a full Windows-style path; lookups (`open`, `os.path.getmtime`,
  `os.path.exists`) are case-insensitive, as on a Windows volume.
* `hashlib.sha1(...).hexdigest()` is a fixed function of the byte stream fed
  to `update`; we keep that function as an explicit parameter
  `h : List Nat → Str` and model the exact stream the code feeds it.
-/

set_option maxHeartbeats 1000000

namespace WinToolchain

/-- Byte strings: Python 2 `str` values are byte sequences. -/
abbrev Str := List Nat

/-- Bytes of a Lean string literal (ASCII only), for readable constants. -/
def str (s : String) : Str := s.toList.map Char.toNat

/-- The Windows path separator byte `\`. -/
def sep : Nat := 92

/-- `os.path.join a b` on Windows (callers never pass an absolute `b`, so the
join is plain concatenation with one separator). -/
def pathJoin (a b : Str) : Str := a ++ sep :: b

/-- Python `str.lower` on one byte (ASCII range, as under the C locale). -/
def lowerByte (b : Nat) : Nat := if 65 ≤ b ∧ b ≤ 90 then b + 32 else b

/-- Python `str.lower` for byte strings. -/
def pyLower (s : Str) : Str := s.map lowerByte

/-- Python `s.replace('/', '\\')`: byte 47 is `/`. -/
def slashToBack (s : Str) : Str := s.map (fun b => if b = 47 then sep else b)

/-- Byte-string `a <= b` as Python 2 compares `str` (lexicographic on bytes). -/
def strLe : Str → Str → Bool
  | [], _ => true
  | _ :: _, [] => false
  | x :: xs, y :: ys => if x < y then true else if y < x then false else strLe xs ys

/-- Stable insertion into a sorted list: the new element goes in front of the
first element it is `le`-below; since `pySorted` folds from the right, equal
keys keep their original relative order, exactly as Python's stable `sorted`. -/
def sortInsert (le : α → α → Bool) (x : α) : List α → List α
  | [] => [x]
  | y :: ys => if le x y then x :: y :: ys else y :: sortInsert le x ys

/-- Python `sorted` (a stable sort by the boolean order `le`). -/
def pySorted (le : α → α → Bool) (l : List α) : List α := l.foldr (sortInsert le) []

/-- The scan loop of Python `s.replace(pat, rep)` for a pattern `p0 :: ptl`,
written with a structural fuel argument (`fuel ≥ s.length` always suffices,
since each step discards at least one byte): occurrences are replaced left to
right without overlap. -/
def replLoopF (p0 : Nat) (ptl rep : List Nat) : Nat → List Nat → List Nat
  | _, [] => []
  | 0, s => s
  | fuel + 1, c :: cs =>
    if c = p0 ∧ ptl.isPrefixOf cs then
      rep ++ replLoopF p0 ptl rep fuel (cs.drop ptl.length)
    else c :: replLoopF p0 ptl rep fuel cs

/-- The scan loop of Python `s.replace(pat, rep)` for a pattern `p0 :: ptl`. -/
def replLoop (p0 : Nat) (ptl rep s : List Nat) : List Nat :=
  replLoopF p0 ptl rep s.length s

/-- Python `s.replace(pat, rep)`.  The script only ever uses a nonempty
pattern (`os.path.join(root, expected_hash)`), so the empty-pattern case is
irrelevant; we return `s` there. -/
def pyReplace (s pat rep : List Nat) : List Nat :=
  match pat with
  | [] => s
  | p0 :: ptl => replLoop p0 ptl rep s

/-- One filesystem node: a file (with contents) or a directory.  `path` is the
full Windows-style path exactly as `os.walk`/`os.path.join` would produce it. -/
structure FileEntry where
  path : Str
  isDir : Bool
  mtime : Int
  content : List Nat
deriving DecidableEq, Repr

/-- `p` lies strictly below directory `dir` (every file `os.walk dir` yields
has `dir ++ [sep]` as a path prefix). -/
def isUnder (dir p : Str) : Bool := (dir ++ [sep]).isPrefixOf p

/-- The crash-report marker `'WER\\ReportQueue'` filtered by `GetFileList`. -/
def werMarker : Str := str "WER\\ReportQueue"

/-- Python substring containment `pat in s` (as a boolean). -/
def strInfix (pat s : Str) : Bool := decide (pat <:+: s)

/-- The file paths `os.walk(root)` contributes before sorting: all file (not
directory) nodes below `root`, minus WER crash-report paths. -/
def rawFileList (fs : List FileEntry) (root : Str) : List Str :=
  ((fs.filter (fun e => !e.isDir && isUnder root e.path)).map (·.path)).filter
    (fun x => !strInfix werMarker x)

/-- The sort key `lambda s: s.replace('/', '\\')` as a boolean order. -/
def pathKeyLe (a b : Str) : Bool := strLe (slashToBack a) (slashToBack b)

/-- `GetFileList(root)`: walk all files below `root`, drop any path containing
the WER crash-report marker, lowercase the survivors, and sort them with the
key `s.replace('/', '\\')`. -/
def GetFileList (fs : List FileEntry) (root : Str) : List Str :=
  pySorted pathKeyLe ((rawFileList fs root).map pyLower)

/-- `os.path.getmtime` with the Windows case-insensitive path lookup (the
script looks files up by their lowercased paths). -/
def getmtime (fs : List FileEntry) (p : Str) : Int :=
  ((fs.find? (fun e => pyLower e.path == pyLower p)).map (·.mtime)).getD 0

/-- `open(path, 'rb').read()` with the Windows case-insensitive path lookup. -/
def readFile (fs : List FileEntry) (p : Str) : List Nat :=
  ((fs.find? (fun e => pyLower e.path == pyLower p)).map (·.content)).getD []

/-- Parsed contents of a `<hash>.timestamps` sidecar file:
`{'files': [[path, mtime], ...], 'sha1': hex}`. -/
structure TimestampsData where
  files : List (Str × Int)
  sha1 : Str
deriving DecidableEq, Repr

/-- A sidecar slot as `CalculateHash` sees it: `none` when the sidecar file
does not exist, `some none` when it exists but `json.load` raises
`ValueError`, `some (some d)` when it parses to `d`. -/
abbrev SidecarSlot := Option (Option TimestampsData)

/-- `timestamps_data` after the `try: json.load` block: the parsed record if
the file exists and parses, and the default `{'files': [], 'sha1': ''}`
otherwise (a parse failure is swallowed by the `except ValueError`). -/
def loadTimestampsData : SidecarSlot → TimestampsData
  | some (some d) => d
  | _ => ⟨[], []⟩

/-- `full_root_path`: `os.path.join(root, expected_hash)` when `expected_hash`
is truthy (nonempty), else `root` itself. -/
def fullRootOf (root expectedHash : Str) : Str :=
  if expectedHash ≠ [] then pathJoin root expectedHash else root

/-- `vc_dir = os.path.join(full_root_path, 'VC').lower()`. -/
def vcDirOf (fullRoot : Str) : Str := pyLower (pathJoin fullRoot (str "VC"))

/-- The `for disk, cached in zip(file_list, timestamps_data['files'])` loop:
each on-disk path must equal the recorded path, and — except for the path
equal to `vc_dir` — its current mtime must equal the recorded one. -/
def mtimesAgree (fs : List FileEntry) (vc : Str) : List (Str × Str × Int) → Bool
  | [] => true
  | (disk, cached) :: rest =>
    if disk ≠ cached.1 ∨ (disk ≠ vc ∧ getmtime fs disk ≠ cached.2) then false
    else mtimesAgree fs vc rest

/-- The `matches` flag computed by `CalculateHash`: the on-disk file list has
the same length as the recorded one and the zip loop finds no disagreement. -/
def sidecarMatches (fs : List FileEntry) (fullRoot : Str) (data : TimestampsData) : Bool :=
  (GetFileList fs fullRoot).length == data.files.length &&
    mtimesAgree fs (vcDirOf fullRoot) ((GetFileList fs fullRoot).zip data.files)

/-- `path_without_hash`: the listed path with `/` turned into `\` and (when
`expected_hash` is nonempty) every occurrence of
`os.path.join(root, expected_hash).replace('/', '\\')` replaced by `root`. -/
def hashPathBytes (root expectedHash p : Str) : Str :=
  if expectedHash ≠ [] then
    pyReplace (slashToBack p) (slashToBack (pathJoin root expectedHash)) root
  else slashToBack p

/-- The byte stream `CalculateHash` feeds to the SHA-1 digest on its
full-hash path: for each listed path in order, `path_without_hash` followed
by the file's raw contents. -/
def hashStream (fs : List FileEntry) (root expectedHash : Str) (fl : List Str) : List Nat :=
  fl.flatMap (fun p => hashPathBytes root expectedHash p ++ readFile fs p)

/-- `CalculateHash(root, expected_hash)`, parameterized by the digest function
`h` standing for `hashlib.sha1(stream).hexdigest()` (a fixed function of the
byte stream fed to `update`).  Returns the sidecar's stored `sha1` when the
`matches` check succeeds, and the digest of the full stream otherwise. -/
def CalculateHash (h : List Nat → Str) (fs : List FileEntry) (root expectedHash : Str)
    (sidecar : SidecarSlot) : Str :=
  let fullRoot := fullRootOf root expectedHash
  let data := loadTimestampsData sidecar
  if sidecarMatches fs fullRoot data then data.sha1
  else h (hashStream fs root expectedHash (GetFileList fs fullRoot))

/-- The record written by `SaveTimestampsAndHash(root, sha1)`:
`{'files': [[f, getmtime(f)] for f in file_list], 'sha1': sha1}`. -/
def mkTimestampsData (fs : List FileEntry) (root sha1 : Str) : TimestampsData :=
  ⟨(GetFileList fs (pathJoin root sha1)).map (fun f => (f, getmtime fs f)), sha1⟩

/-- `os.utime(p, (t, t))`-style mtime update (case-insensitive path match, as
on a Windows volume); all other metadata and contents are untouched. -/
def touchPath (fs : List FileEntry) (p : Str) (t : Int) : List FileEntry :=
  fs.map (fun e => if pyLower e.path == pyLower p then { e with mtime := t } else e)

/-- A version tree laid out under `root\\hname`: one file node per element of
`rel`, each a (relative path, mtime, contents) triple.  Used to compare two
on-disk copies of the same file set under different parent names. -/
def mkVersionFS (root hname : Str) (rel : List (Str × Int × List Nat)) : List FileEntry :=
  rel.map (fun r => ⟨pathJoin (pathJoin root hname) r.1, false, r.2.1, r.2.2⟩)

/-! ### The cache-root world: `main`'s acquisition flow and eviction -/

/-- The name of a direct child of `dir`: `p = dir ++ [sep] ++ name` with a
nonempty, separator-free `name` (one `os.listdir` entry). -/
def childName (dir p : Str) : Option Str :=
  if (dir ++ [sep]).isPrefixOf p then
    if p.drop (dir.length + 1) ≠ [] ∧ sep ∉ p.drop (dir.length + 1) ∧
        47 ∉ p.drop (dir.length + 1) then
      some (p.drop (dir.length + 1))
    else none
  else none

/-- `os.listdir(root)`, pairing each entry name with its filesystem node. -/
def listdir (fs : List FileEntry) (root : Str) : List (Str × FileEntry) :=
  fs.filterMap (fun e => (childName root e.path).map (fun n => (n, e)))

/-- The sidecar files `<name>.timestamps` stored next to the cache root,
keyed by toolchain name; a value of `none` is an unparsable file. -/
abbrev SidecarStore := List (Str × Option TimestampsData)

/-- `os.path.exists(MakeTimestampsFileName(root, name))` plus `json.load`:
`none` when the file is absent, `some none` when unparsable. -/
def lookupSidecar (scs : SidecarStore) (name : Str) : SidecarSlot :=
  (scs.find? (fun s => s.1 == name)).map (·.2)

/-- `CalculateToolchainHashes(root)`: the hash of every subdirectory of the
cache root. -/
def CalculateToolchainHashes (h : List Nat → Str) (fs : List FileEntry)
    (scs : SidecarStore) (root : Str) : List Str :=
  ((listdir fs root).filter (fun d => d.2.isDir)).map
    (fun d => CalculateHash h fs root d.1 (lookupSidecar scs d.1))

/-- The combined metadata record written to `data.json` (the fields the
claims are about; paths are modelled un-absolutized). -/
structure DataRecord where
  path : Str
  version : List Nat
  win_sdk : Str
deriving DecidableEq, Repr

/-- The state the acquisition flow manipulates: the cache-root file tree, the
sidecar files beside it, and the combined `data.json`. -/
structure World where
  fs : List FileEntry
  sidecars : SidecarStore
  dataJson : Option DataRecord
deriving DecidableEq, Repr

/-- The three access probes: `HaveSrcInternalAccess()`, `LooksLikeGoogler()`
and `CanAccessToolchainBucket()` (modelled as a stable environment). -/
structure AccessEnv where
  srcInternal : Bool
  googler : Bool
  bucket : Bool
deriving DecidableEq, Repr

/-- One run of the acquisition flow: the final state, the process exit code,
and whether the out-of-date branch (network probes and download) was
entered.  `none` models an uncaught exception. -/
structure RunResult where
  world : World
  exitCode : Nat
  tookDownloadBranch : Bool
deriving DecidableEq, Repr

/-- `os.path.exists` (case-insensitive). -/
def entryExists (fs : List FileEntry) (p : Str) : Bool :=
  fs.any (fun e => pyLower e.path == pyLower p)

/-- A path names an existing regular file (so `open` succeeds). -/
def fileExistsW (fs : List FileEntry) (p : Str) : Bool :=
  (fs.find? (fun e => pyLower e.path == pyLower p)).elim false (fun e => !e.isDir)

/-- Python `str.strip()`: ASCII whitespace removed from both ends. -/
def isSpaceByte (b : Nat) : Bool := b == 32 || (9 ≤ b && b ≤ 13)

/-- Python `str.strip()` on a byte string. -/
def pyStrip (s : List Nat) : List Nat :=
  ((s.dropWhile isSpaceByte).reverse.dropWhile isSpaceByte).reverse

/-- `RemoveToolchain(root, name, ...)`: recursively delete `root\\name` and
remove its `.timestamps` sidecar. -/
def RemoveToolchain (root name : Str) (w : World) : World :=
  { w with
    fs := w.fs.filter (fun e =>
      !(e.path == pathJoin root name || isUnder (pathJoin root name) e.path)),
    sidecars := w.sidecars.filter (fun s => !(s.1 == name)) }

/-- The 30-day retention window, `60 * 60 * 24 * 30` seconds. -/
def toolchainExpirationTime : Int := 60 * 60 * 24 * 30

/-- The `dirs_to_remove` list of `RemoveUnusedToolchains`: subdirectory names
with no sidecar file. -/
def dirsToRemoveOf (w : World) (root : Str) : List Str :=
  ((listdir w.fs root).filter
    (fun d => d.2.isDir && !(lookupSidecar w.sidecars d.1).isSome)).map (·.1)

/-- The sidecar-bearing subdirectory entries of the cache root. -/
def withSidecarOf (w : World) (root : Str) : List (Str × FileEntry) :=
  (listdir w.fs root).filter (fun d => d.2.isDir && (lookupSidecar w.sidecars d.1).isSome)

/-- The expired entries of `valid_toolchains`: sidecar-bearing directories
whose `VC` mtime is more than the retention window before `now`. -/
def expiredOf (now : Int) (w : World) (root : Str) : List Str :=
  (((withSidecarOf w root).map
      (fun d => (getmtime w.fs (pathJoin (pathJoin root d.1) (str "VC")), d.1))).filter
    (fun t => now - t.1 > toolchainExpirationTime)).map (·.2)

/-- The effect of `RemoveUnusedToolchains` when no `os.path.getmtime` call
raises: delete the cache root's plain-file children, then remove each
sidecar-less directory and each expired sidecar-bearing directory with
`RemoveToolchain`. -/
def evictResultW (now : Int) (root : Str) (w : World) : World :=
  (dirsToRemoveOf w root ++ expiredOf now w root).foldl
    (fun acc n => RemoveToolchain root n acc)
    { w with fs := w.fs.filter (fun e =>
        !((listdir w.fs root).filter (fun d => !d.2.isDir)).any (fun d => d.2 == e)) }

/-- `RemoveUnusedToolchains(root)`: classify the cache root's entries, delete
stray plain files, remove sidecar-less directories, then evict sidecar-bearing
directories unused for more than 30 days.  `none` models the uncaught
`OSError` from `os.path.getmtime` when a sidecar-bearing directory has no
`VC` subdirectory.  `time.time()` is modelled as the single instant `now`. -/
def RemoveUnusedToolchains (now : Int) (root : Str) (w : World) : Option World :=
  if (withSidecarOf w root).any
      (fun d => !entryExists w.fs (pathJoin (pathJoin root d.1) (str "VC"))) then
    none
  else
    some (evictResultW now root w)

/-- One node of a downloaded archive, relative to the version directory. -/
structure RelEntry where
  rpath : Str
  isDir : Bool
  mtime : Int
  content : List Nat
deriving DecidableEq, Repr

/-- `DoTreeMirror`: extract the downloaded tree into `root\\desired`
(preserving relative paths and timestamps, per the zip collaborator). -/
def extractTree (root desired : Str) (tree : List RelEntry) (w : World) : World :=
  { w with fs := w.fs ++ tree.map (fun r =>
      ⟨pathJoin (pathJoin root desired) r.rpath, r.isDir, r.mtime, r.content⟩) }

/-- The `try: open(VS_VERSION) ... os.utime(VC)` block: reads the version
string and touches `VC` when `VS_VERSION` exists (crashing — `none` — on a
missing `VC`, since `os.utime`'s `OSError` is not caught); falls back to
`'2013'`/`win8sdk` on the `IOError` of a missing `VS_VERSION`. -/
def vsVersionPhase (now : Int) (root desired : Str) (w : World) :
    Option (World × List Nat × Str) :=
  if fileExistsW w.fs (pathJoin (pathJoin root desired) (str "VS_VERSION")) then
    if entryExists w.fs (pathJoin (pathJoin root desired) (str "VC")) then
      some ({ w with fs := touchPath w.fs (pathJoin (pathJoin root desired) (str "VC")) now },
        pyStrip (readFile w.fs (pathJoin (pathJoin root desired) (str "VS_VERSION"))),
        str "win_sdk")
    else none
  else some (w, str "2013", str "win8sdk")

/-- Writing `data.json` (the combined metadata output). -/
def writeDataJson (root desired : Str) (vsVersion : List Nat) (sdkName : Str)
    (w : World) : World :=
  { w with dataJson := some ⟨pathJoin root desired, vsVersion,
      pathJoin (pathJoin root desired) sdkName⟩ }

/-- `SaveTimestampsAndHash(root, sha1)`: overwrite the sidecar for `sha1`
with the freshly recorded file list, mtimes and hash. -/
def SaveTimestampsAndHash (root sha1 : Str) (w : World) : World :=
  { w with sidecars := (sha1, some (mkTimestampsData w.fs root sha1)) ::
      w.sidecars.filter (fun s => !(s.1 == sha1)) }

/-- The tail of `main` after the download decision: the `VS_VERSION`/touch
block, the `data.json` write, then — when a new toolchain was pulled — the
hash re-verification (mismatch: report and exit 1, leaving the extracted
tree and writing no sidecar) and the sidecar save, and finally eviction. -/
def finishPhase (h : List Nat → Str) (now : Int) (root desired : Str)
    (gotNew tookBranch : Bool) (w : World) : Option RunResult :=
  match vsVersionPhase now root desired w with
  | none => none
  | some (w1, vsVersion, sdkName) =>
    let w2 := writeDataJson root desired vsVersion sdkName w1
    if gotNew then
      if desired ∈ CalculateToolchainHashes h w2.fs w2.sidecars root then
        (RemoveUnusedToolchains now root (SaveTimestampsAndHash root desired w2)).map
          (fun w4 => ⟨w4, 0, tookBranch⟩)
      else some ⟨w2, 1, tookBranch⟩
    else
      (RemoveUnusedToolchains now root w2).map (fun w4 => ⟨w4, 0, tookBranch⟩)

/-- The acquisition flow of `main` (from `current_hashes` on): when the
desired hash is already installed nothing is downloaded; otherwise the access
probes run (any failure exits 1) and the tree for `desired` is downloaded and
extracted before the common tail. -/
def acquireFlow (h : List Nat → Str) (now : Int) (root desired : Str)
    (access : AccessEnv) (download : List RelEntry) (w : World) : Option RunResult :=
  if desired ∈ CalculateToolchainHashes h w.fs w.sidecars root then
    finishPhase h now root desired false false w
  else if !(access.srcInternal || access.googler || access.bucket) then
    some ⟨w, 1, true⟩
  else if !access.bucket then
    some ⟨w, 1, true⟩
  else
    finishPhase h now root desired true true (extractTree root desired download w)

/-- A concrete cache root for exercising the eviction policy: a stray plain
file `r\\x`, an orphan directory `r\\o` (no sidecar), a recently used
sidecar-bearing version `r\\g`, and an expired sidecar-bearing version
`r\\old`. -/
def c4World : World :=
  { fs := [⟨str "r\\x", false, 0, [1]⟩,
           ⟨str "r\\o", true, 0, []⟩,
           ⟨str "r\\g", true, 0, []⟩,
           ⟨str "r\\g\\VC", true, 2592001, []⟩,
           ⟨str "r\\old", true, 0, []⟩,
           ⟨str "r\\old\\VC", true, 0, []⟩],
    sidecars := [(str "g", some ⟨[], str "g"⟩), (str "old", some ⟨[], str "old"⟩)],
    dataJson := none }

/-- A settled cache root for the idempotence property: version `a` installed
under root `r` with its `VS_VERSION` file and `VC` subdirectory present and a
validating sidecar. -/
def c5GoodWorld : World :=
  { fs := [⟨str "r\\a", true, 0, []⟩,
           ⟨str "r\\a\\VS_VERSION", false, 5, str "2017"⟩,
           ⟨str "r\\a\\VC", true, 7, []⟩],
    sidecars := [(str "a", some ⟨[(str "r\\a\\vs_version", 5)], str "a"⟩)],
    dataJson := none }

/-- A cache root holding a stale but validly installed version `a`: the
sidecar matches, but there is no `VS_VERSION` file and `VC` was last touched
at time 0. -/
def c5OldWorld : World :=
  { fs := [⟨str "r\\a", true, 0, []⟩,
           ⟨str "r\\a\\VC", true, 0, []⟩,
           ⟨str "r\\a\\f", false, 3, [9]⟩],
    sidecars := [(str "a", some ⟨[(str "r\\a\\f", 3)], str "a"⟩)],
    dataJson := none }

/-- The state left behind by one run of the flow on `c5OldWorld`: the
installation and its sidecar evicted, `data.json` pointing at the removed
directory. -/
def c5EvictedWorld : World :=
  { fs := [],
    sidecars := [],
    dataJson := some ⟨str "r\\a", str "2013", str "r\\a\\win8sdk"⟩ }

/-! ### The stable sort: permutation and mapping lemmas -/

theorem sortInsert_perm (le : α → α → Bool) (x : α) (l : List α) :
    List.Perm (sortInsert le x l) (x :: l) := by
  induction l with
  | nil => simp [sortInsert]
  | cons y ys ih =>
    simp only [sortInsert]
    split
    · exact List.Perm.refl _
    · exact (ih.cons y).trans (List.Perm.swap x y ys)

theorem pySorted_perm (le : α → α → Bool) (l : List α) : List.Perm (pySorted le l) l := by
  induction l with
  | nil => rfl
  | cons x xs ih => exact (sortInsert_perm le x (pySorted le xs)).trans (ih.cons x)

theorem pySorted_length (le : α → α → Bool) (l : List α) :
    (pySorted le l).length = l.length :=
  (pySorted_perm le l).length_eq

theorem pySorted_mem (le : α → α → Bool) (a : α) (l : List α) :
    a ∈ pySorted le l ↔ a ∈ l :=
  (pySorted_perm le l).mem_iff

theorem sortInsert_map (f : α → β) (le' : α → α → Bool) (le : β → β → Bool)
    (hc : ∀ a b, le (f a) (f b) = le' a b) (x : α) (l : List α) :
    sortInsert le (f x) (l.map f) = (sortInsert le' x l).map f := by
  induction l with
  | nil => simp [sortInsert]
  | cons y ys ih =>
    simp only [List.map_cons, sortInsert, hc]
    split <;> simp_all

theorem pySorted_map (f : α → β) (le' : α → α → Bool) (le : β → β → Bool)
    (hc : ∀ a b, le (f a) (f b) = le' a b) (l : List α) :
    pySorted le (l.map f) = (pySorted le' l).map f := by
  induction l with
  | nil => rfl
  | cons x xs ih =>
    simp only [List.map_cons, pySorted, List.foldr_cons] at *
    rw [ih, sortInsert_map f le' le hc]

/-! ### Byte-string lemmas -/

theorem strLe_append (p x y : Str) : strLe (p ++ x) (p ++ y) = strLe x y := by
  induction p with
  | nil => rfl
  | cons c cs ih => simp [strLe, ih]

theorem lowerByte_idem (b : Nat) : lowerByte (lowerByte b) = lowerByte b := by
  by_cases h : 65 ≤ b ∧ b ≤ 90
  · simp only [lowerByte, if_pos h]
    rw [if_neg]
    omega
  · simp only [lowerByte, if_neg h]

theorem pyLower_idem (s : Str) : pyLower (pyLower s) = pyLower s := by
  simp only [pyLower, List.map_map]
  exact List.map_congr_left fun b _ => lowerByte_idem b

theorem pyLower_append (s t : Str) : pyLower (s ++ t) = pyLower s ++ pyLower t :=
  List.map_append ..

theorem slashToBack_append (s t : Str) :
    slashToBack (s ++ t) = slashToBack s ++ slashToBack t :=
  List.map_append ..

/-! ### Python `str.replace` lemmas -/

/-- The fuel argument of `replLoopF` is irrelevant once it covers the
string's length. -/
theorem replLoopF_fuel (p0 : Nat) (ptl rep : List Nat) :
    ∀ (fuel fuel' : Nat) (s : List Nat), s.length ≤ fuel → s.length ≤ fuel' →
      replLoopF p0 ptl rep fuel s = replLoopF p0 ptl rep fuel' s := by
  intro fuel
  induction fuel with
  | zero =>
    intro fuel' s hs _
    rw [Nat.le_zero] at hs
    rw [List.length_eq_zero] at hs
    subst hs
    cases fuel' <;> rfl
  | succ fuel ih =>
    intro fuel' s hs hs'
    cases s with
    | nil => cases fuel' <;> rfl
    | cons c cs =>
      cases fuel' with
      | zero => simp at hs'
      | succ f' =>
        simp only [List.length_cons] at hs hs'
        simp only [replLoopF]
        split
        · rw [ih f' (cs.drop ptl.length)
            (by simp only [List.length_drop]; omega)
            (by simp only [List.length_drop]; omega)]
        · rw [ih f' cs (by omega) (by omega)]

theorem replLoop_nil (p0 : Nat) (ptl rep : List Nat) : replLoop p0 ptl rep [] = [] := rfl

theorem replLoop_cons (p0 : Nat) (ptl rep : List Nat) (c : Nat) (cs : List Nat) :
    replLoop p0 ptl rep (c :: cs) =
      if c = p0 ∧ ptl.isPrefixOf cs then rep ++ replLoop p0 ptl rep (cs.drop ptl.length)
      else c :: replLoop p0 ptl rep cs := by
  show replLoopF p0 ptl rep (cs.length + 1) (c :: cs) = _
  simp only [replLoopF]
  split
  · rw [replLoopF_fuel p0 ptl rep cs.length (cs.drop ptl.length).length
      (cs.drop ptl.length) (by simp only [List.length_drop]; omega) (le_refl _)]
    rfl
  · rfl

/-- Scanning `pat ++ rest` replaces the leading occurrence and goes on with
`rest`. -/
theorem replLoop_append_self (p0 : Nat) (ptl rep rest : List Nat) :
    replLoop p0 ptl rep ((p0 :: ptl) ++ rest) = rep ++ replLoop p0 ptl rep rest := by
  rw [List.cons_append, replLoop_cons, if_pos]
  · rw [List.drop_left]
  · exact ⟨rfl, List.isPrefixOf_iff_prefix.mpr (List.prefix_append ptl rest)⟩

/-- A string with no occurrence of the pattern is left unchanged. -/
theorem replLoop_of_not_infix (p0 : Nat) (ptl rep : List Nat) (s : List Nat)
    (hs : ¬ (p0 :: ptl) <:+: s) : replLoop p0 ptl rep s = s := by
  induction s with
  | nil => exact replLoop_nil ..
  | cons c cs ih =>
    rw [replLoop_cons, if_neg, ih]
    · exact fun hinf => hs (hinf.trans (List.suffix_cons c cs).isInfix)
    · rintro ⟨hc, hpre⟩
      obtain ⟨rest, hrest⟩ := List.isPrefixOf_iff_prefix.mp hpre
      exact hs ⟨[], rest, by simp [hc, hrest]⟩

/-- `(pat ++ rest).replace(pat, rep) = rep ++ rest` when `pat` is nonempty and
does not occur in `rest`. -/
theorem pyReplace_strip (p0 : Nat) (ptl rep rest : List Nat)
    (hs : ¬ (p0 :: ptl) <:+: rest) :
    pyReplace ((p0 :: ptl) ++ rest) (p0 :: ptl) rep = rep ++ rest := by
  simp only [pyReplace]
  rw [replLoop_append_self, replLoop_of_not_infix _ _ _ _ hs]

/-! ### Characterizing the sidecar `matches` check -/

theorem mtimesAgree_iff (fs : List FileEntry) (vc : Str) (l : List (Str × Str × Int)) :
    mtimesAgree fs vc l = true ↔
      ∀ p ∈ l, p.1 = p.2.1 ∧ (p.1 = vc ∨ getmtime fs p.1 = p.2.2) := by
  induction l with
  | nil => simp [mtimesAgree]
  | cons q rest ih =>
    obtain ⟨disk, cached⟩ := q
    by_cases hC : disk ≠ cached.1 ∨ (disk ≠ vc ∧ getmtime fs disk ≠ cached.2)
    · simp only [mtimesAgree, if_pos hC]
      constructor
      · intro hfalse
        exact absurd hfalse (by simp)
      · intro hall
        have hhd := hall (disk, cached) (List.mem_cons_self _ _)
        simp only at hhd
        tauto
    · simp only [mtimesAgree, if_neg hC, ih]
      push_neg at hC
      constructor
      · intro hrest p hp
        rcases List.mem_cons.mp hp with heq | hmem
        · subst heq
          refine ⟨hC.1, ?_⟩
          by_cases hvc : disk = vc
          · exact Or.inl hvc
          · exact Or.inr (hC.2 hvc)
        · exact hrest p hmem
      · intro hall p hp
        exact hall p (List.mem_cons_of_mem _ hp)

theorem zip_fst_eq {β : Type} (fl : List Str) (files : List (Str × β))
    (hlen : fl.length = files.length)
    (hfst : ∀ p ∈ fl.zip files, p.1 = p.2.1) : fl = files.map Prod.fst := by
  induction fl generalizing files with
  | nil =>
    cases files with
    | nil => rfl
    | cons d ds => simp at hlen
  | cons a rest ih =>
    cases files with
    | nil => simp at hlen
    | cons d ds =>
      simp only [List.zip_cons_cons] at hfst
      have h1 := hfst (a, d) (List.mem_cons_self _ _)
      simp only at h1
      simp only [List.map_cons]
      rw [ih ds (by simpa using hlen) (fun p hp => hfst p (List.mem_cons_of_mem _ hp)), h1]

theorem zip_map_fst {β : Type} (files : List (Str × β)) :
    (files.map Prod.fst).zip files = files.map (fun d => (d.1, d)) := by
  induction files with
  | nil => rfl
  | cons d ds ih => simp [ih]

/-- The `matches` flag of `CalculateHash`, stated the way the spec describes
it: the recorded file list is exactly the current on-disk file list (same
paths, same order, same length), and every recorded modification time agrees
with the current one, except for an entry equal to `vc_dir`. -/
theorem sidecarMatches_iff (fs : List FileEntry) (fullRoot : Str) (data : TimestampsData) :
    sidecarMatches fs fullRoot data = true ↔
      GetFileList fs fullRoot = data.files.map Prod.fst ∧
      ∀ q ∈ data.files, q.1 = vcDirOf fullRoot ∨ getmtime fs q.1 = q.2 := by
  simp only [sidecarMatches, Bool.and_eq_true, beq_iff_eq]
  constructor
  · rintro ⟨hlen, hloop⟩
    rw [mtimesAgree_iff] at hloop
    have hfst := zip_fst_eq (GetFileList fs fullRoot) data.files hlen
      (fun p hp => (hloop p hp).1)
    refine ⟨hfst, fun q hq => ?_⟩
    have hz : (q.1, q) ∈ (GetFileList fs fullRoot).zip data.files := by
      rw [hfst, zip_map_fst]
      exact List.mem_map.mpr ⟨q, hq, rfl⟩
    simpa using (hloop (q.1, q) hz).2
  · rintro ⟨hfst, hmt⟩
    refine ⟨by rw [hfst, List.length_map], ?_⟩
    rw [mtimesAgree_iff]
    intro p hp
    rw [hfst, zip_map_fst] at hp
    obtain ⟨q, hq, rfl⟩ := List.mem_map.mp hp
    exact ⟨rfl, hmt q hq⟩

/-- `CalculateHash` on the fast path. -/
theorem CalculateHash_fast (h : List Nat → Str) (fs : List FileEntry)
    (root eh : Str) (sc : SidecarSlot)
    (hm : sidecarMatches fs (fullRootOf root eh) (loadTimestampsData sc) = true) :
    CalculateHash h fs root eh sc = (loadTimestampsData sc).sha1 := by
  simp [CalculateHash, hm]

/-- `CalculateHash` on the full-rehash path. -/
theorem CalculateHash_full (h : List Nat → Str) (fs : List FileEntry)
    (root eh : Str) (sc : SidecarSlot)
    (hm : sidecarMatches fs (fullRootOf root eh) (loadTimestampsData sc) = false) :
    CalculateHash h fs root eh sc =
      h (hashStream fs root eh (GetFileList fs (fullRootOf root eh))) := by
  simp [CalculateHash, hm]

/-! ### Congruence lemmas: which parts of the state each operation reads -/

theorem find?_map {α β : Type} (g : α → β) (p : β → Bool) (l : List α) :
    (l.map g).find? p = (l.find? (fun a => p (g a))).map g := by
  induction l with
  | nil => rfl
  | cons a rest ih =>
    simp only [List.map_cons, List.find?]
    cases h : p (g a) <;> simp [h, ih]

/-- A metadata-preserving rewrite of the filesystem (same paths, same
dir/file classification) leaves `GetFileList` unchanged. -/
theorem GetFileList_map_preserve (g : FileEntry → FileEntry)
    (hpath : ∀ e, (g e).path = e.path) (hdir : ∀ e, (g e).isDir = e.isDir)
    (fs : List FileEntry) (root : Str) :
    GetFileList (fs.map g) root = GetFileList fs root := by
  have h1 : (fs.map g).filter (fun e => !e.isDir && isUnder root e.path)
      = (fs.filter (fun e => !e.isDir && isUnder root e.path)).map g := by
    rw [List.filter_map]
    congr 1
    exact List.filter_congr (fun e _ => by simp only [Function.comp_apply, hdir, hpath])
  have h2 : ((fs.filter (fun e => !e.isDir && isUnder root e.path)).map g).map (·.path)
      = (fs.filter (fun e => !e.isDir && isUnder root e.path)).map (·.path) := by
    rw [List.map_map]
    exact List.map_congr_left (fun e _ => by simp only [Function.comp_apply, hpath])
  unfold GetFileList rawFileList
  rw [h1, h2]

theorem getmtime_map_preserve (g : FileEntry → FileEntry)
    (hpath : ∀ e, (g e).path = e.path) (fs : List FileEntry) (q : Str)
    (hm : ∀ e ∈ fs, pyLower e.path = pyLower q → (g e).mtime = e.mtime) :
    getmtime (fs.map g) q = getmtime fs q := by
  unfold getmtime
  rw [find?_map]
  have hpred : (fun a => (pyLower (g a).path == pyLower q)) =
      (fun e => (pyLower e.path == pyLower q)) := by
    funext a
    rw [hpath]
  rw [hpred]
  cases hf : fs.find? (fun e => (pyLower e.path == pyLower q)) with
  | none => rfl
  | some e =>
    have hpe : pyLower e.path = pyLower q := by
      have := List.find?_some hf
      simpa using this
    have hme : e ∈ fs := List.mem_of_find?_eq_some hf
    simp [hm e hme hpe]

theorem readFile_map_preserve (g : FileEntry → FileEntry)
    (hpath : ∀ e, (g e).path = e.path)
    (hcont : ∀ e, (g e).content = e.content) (fs : List FileEntry) (q : Str) :
    readFile (fs.map g) q = readFile fs q := by
  unfold readFile
  rw [find?_map]
  have hpred : (fun a => (pyLower (g a).path == pyLower q)) =
      (fun e => (pyLower e.path == pyLower q)) := by
    funext a
    rw [hpath]
  rw [hpred]
  cases hf : fs.find? (fun e => (pyLower e.path == pyLower q)) with
  | none => rfl
  | some e => simp [hcont]

theorem mtimesAgree_congr (fsA fsB : List FileEntry) (vc : Str)
    (l : List (Str × Str × Int))
    (hg : ∀ p ∈ l, getmtime fsA p.1 = getmtime fsB p.1) :
    mtimesAgree fsA vc l = mtimesAgree fsB vc l := by
  induction l with
  | nil => rfl
  | cons q rest ih =>
    obtain ⟨disk, cached⟩ := q
    have hq := hg (disk, cached) (List.mem_cons_self _ _)
    simp only at hq
    simp only [mtimesAgree, hq]
    rw [ih (fun p hp => hg p (List.mem_cons_of_mem _ hp))]

theorem hashStream_congr (fsA fsB : List FileEntry) (root eh : Str) (fl : List Str)
    (hrf : ∀ p ∈ fl, readFile fsA p = readFile fsB p) :
    hashStream fsA root eh fl = hashStream fsB root eh fl := by
  unfold hashStream
  induction fl with
  | nil => rfl
  | cons p rest ih =>
    simp only [List.flatMap_cons]
    rw [hrf p (List.mem_cons_self _ _), ih (fun q hq => hrf q (List.mem_cons_of_mem _ hq))]

theorem GetFileList_touchPath (fs : List FileEntry) (p : Str) (t : Int) (root : Str) :
    GetFileList (touchPath fs p t) root = GetFileList fs root := by
  unfold touchPath
  exact GetFileList_map_preserve _ (fun e => by split <;> rfl) (fun e => by split <;> rfl) fs root

theorem getmtime_touchPath_ne (fs : List FileEntry) (p q : Str) (t : Int)
    (hne : pyLower q ≠ pyLower p) :
    getmtime (touchPath fs p t) q = getmtime fs q := by
  unfold touchPath
  apply getmtime_map_preserve _ (fun e => by split <;> rfl)
  intro e _ hpe
  have hcond : (pyLower e.path == pyLower p) = false := by
    rw [hpe, beq_eq_false_iff_ne]
    exact hne
  simp [hcond]

theorem getmtime_touchPath_self (fs : List FileEntry) (p : Str) (t : Int)
    (hex : ∃ e ∈ fs, pyLower e.path = pyLower p) :
    getmtime (touchPath fs p t) p = t := by
  unfold touchPath getmtime
  rw [find?_map]
  have hpred : (fun a =>
      pyLower ((if pyLower a.path == pyLower p then { a with mtime := t } else a) :
        FileEntry).path == pyLower p) = (fun e => pyLower e.path == pyLower p) := by
    funext a
    congr 1
    split <;> rfl
  rw [hpred]
  obtain ⟨e, he, hpe⟩ := hex
  have hsome : (fs.find? (fun e => pyLower e.path == pyLower p)).isSome := by
    rw [List.find?_isSome]
    exact ⟨e, he, by simp [hpe]⟩
  cases hf : fs.find? (fun e => pyLower e.path == pyLower p) with
  | none => rw [hf] at hsome; cases hsome
  | some e0 =>
    have hpe0 : pyLower e0.path = pyLower p := by simpa using List.find?_some hf
    simp [hpe0]

theorem readFile_touchPath (fs : List FileEntry) (p q : Str) (t : Int) :
    readFile (touchPath fs p t) q = readFile fs q := by
  unfold touchPath
  exact readFile_map_preserve _ (fun e => by split <;> rfl) (fun e => by split <;> rfl) fs q

/-- Every element of `GetFileList` is a lowercased path. -/
theorem GetFileList_mem_lower (fs : List FileEntry) (root x : Str)
    (hx : x ∈ GetFileList fs root) : pyLower x = x := by
  unfold GetFileList at hx
  rw [pySorted_mem] at hx
  obtain ⟨y, _, rfl⟩ := List.mem_map.mp hx
  exact pyLower_idem y

/-! ### Length bookkeeping for the file list -/

theorem GetFileList_length (fs : List FileEntry) (root : Str) :
    (GetFileList fs root).length = (rawFileList fs root).length := by
  unfold GetFileList
  rw [pySorted_length, List.length_map]

theorem rawFileList_append (fs₁ fs₂ : List FileEntry) (root : Str) :
    rawFileList (fs₁ ++ fs₂) root = rawFileList fs₁ root ++ rawFileList fs₂ root := by
  simp [rawFileList, List.filter_append, List.map_append]

theorem rawFileList_cons_keep (e : FileEntry) (fs : List FileEntry) (root : Str)
    (hf : e.isDir = false) (hu : isUnder root e.path = true)
    (hw : strInfix werMarker e.path = false) :
    rawFileList (e :: fs) root = e.path :: rawFileList fs root := by
  simp [rawFileList, hf, hu, hw]

theorem rawFileList_cons_drop (e : FileEntry) (fs : List FileEntry) (root : Str)
    (hd : e.isDir = true ∨ isUnder root e.path = false ∨ strInfix werMarker e.path = true) :
    rawFileList (e :: fs) root = rawFileList fs root := by
  rcases hd with hd | hd | hd
  · simp [rawFileList, hd]
  · simp [rawFileList, hd]
  · by_cases hfd : e.isDir
    · simp [rawFileList, hfd]
    · by_cases hu : isUnder root e.path
      · simp [rawFileList, hfd, hu, hd]
      · simp [rawFileList, hu]

theorem sidecarMatches_false_of_length (fs : List FileEntry) (fullRoot : Str)
    (data : TimestampsData)
    (hne : (GetFileList fs fullRoot).length ≠ data.files.length) :
    sidecarMatches fs fullRoot data = false := by
  unfold sidecarMatches
  rw [show ((GetFileList fs fullRoot).length == data.files.length) = false from
    beq_eq_false_iff_ne.mpr hne, Bool.false_and]

/-- Touching the `VC` path (case-insensitively) never breaks a matching
sidecar: listed paths equal to `vc_dir` are exempt from the mtime comparison,
and all other listed paths are unaffected by the touch. -/
theorem sidecarMatches_touch_vc (fs : List FileEntry) (fullRoot : Str)
    (data : TimestampsData) (t : Int)
    (hm : sidecarMatches fs fullRoot data = true) :
    sidecarMatches (touchPath fs (pathJoin fullRoot (str "VC")) t) fullRoot data = true := by
  rw [sidecarMatches_iff] at hm ⊢
  obtain ⟨hfst, hmt⟩ := hm
  rw [GetFileList_touchPath]
  refine ⟨hfst, fun q hq => ?_⟩
  by_cases hvc : q.1 = vcDirOf fullRoot
  · exact Or.inl hvc
  · right
    have hlow : pyLower q.1 = q.1 := by
      apply GetFileList_mem_lower fs fullRoot
      rw [hfst]
      exact List.mem_map.mpr ⟨q, hq, rfl⟩
    rw [getmtime_touchPath_ne]
    · rcases hmt q hq with h | h
      · exact absurd h hvc
      · exact h
    · rw [hlow]
      exact fun hcontra => hvc hcontra

theorem sidecarMatches_map_preserve (g : FileEntry → FileEntry)
    (hpath : ∀ e, (g e).path = e.path) (hdir : ∀ e, (g e).isDir = e.isDir)
    (hmt : ∀ e, (g e).mtime = e.mtime)
    (fs : List FileEntry) (fullRoot : Str) (data : TimestampsData) :
    sidecarMatches (fs.map g) fullRoot data = sidecarMatches fs fullRoot data := by
  unfold sidecarMatches
  rw [GetFileList_map_preserve g hpath hdir]
  congr 1
  apply mtimesAgree_congr
  intro p _
  exact getmtime_map_preserve g hpath fs p.1 (fun e _ _ => hmt e)

/-- Claim C9: if the version directory contains zero files and the sidecar is
absent or unparsable, `CalculateHash` returns the empty string (the default
cached `sha1` value): the empty on-disk file list trivially matches the
default empty cached file list and the fast path returns the default value. -/
theorem calculateHash_empty_dir_returns_default (h : List Nat → Str)
    (fs : List FileEntry) (root eh : Str) (sc : SidecarSlot)
    (hsc : sc = none ∨ sc = some none)
    (hempty : ∀ e ∈ fs, e.isDir = false → isUnder (fullRootOf root eh) e.path = false) :
    CalculateHash h fs root eh sc = [] := by
  have hdata : loadTimestampsData sc = ⟨[], []⟩ := by
    rcases hsc with rfl | rfl <;> rfl
  have hraw : rawFileList fs (fullRootOf root eh) = [] := by
    unfold rawFileList
    have hfil : fs.filter (fun e => !e.isDir && isUnder (fullRootOf root eh) e.path) = [] := by
      rw [List.filter_eq_nil_iff]
      intro e he
      cases hd : e.isDir with
      | true => simp [hd]
      | false => simp [hd, hempty e he hd]
    rw [hfil]
    rfl
  have hfl : GetFileList fs (fullRootOf root eh) = [] := by
    unfold GetFileList
    rw [hraw]
    rfl
  have hmm : sidecarMatches fs (fullRootOf root eh) (loadTimestampsData sc) = true := by
    rw [hdata]
    unfold sidecarMatches
    rw [hfl]
    rfl
  rw [CalculateHash_fast h fs root eh sc hmm, hdata]

/-- Claim C9 witness: a concrete empty directory with an absent sidecar. -/
theorem calculateHash_empty_dir_returns_default_witness :
    CalculateHash (fun _ => [1]) [] (str "r") (str "a") none = [] :=
  calculateHash_empty_dir_returns_default (fun _ => [1]) [] (str "r") (str "a") none
    (Or.inl rfl) (fun e he _ => absurd he (List.not_mem_nil e))

/-- Claim C7 (amended): a sidecar file that exists but cannot be parsed as
JSON is silently treated exactly like an absent sidecar (the `ValueError` is
swallowed and the default empty record is used, so the parse failure never
propagates), and whenever the directory's file list is nonempty this forces a
full content re-hash that returns the fresh digest.  (When the file list is
empty the empty default record matches and the empty-string default is
returned instead — see the counterexample.) -/
theorem calculateHash_corrupt_sidecar (h : List Nat → Str) (fs : List FileEntry)
    (root eh : Str) :
    CalculateHash h fs root eh (some none) = CalculateHash h fs root eh none ∧
    (GetFileList fs (fullRootOf root eh) ≠ [] →
      CalculateHash h fs root eh (some none) =
        h (hashStream fs root eh (GetFileList fs (fullRootOf root eh)))) := by
  constructor
  · rfl
  · intro hne
    apply CalculateHash_full
    apply sidecarMatches_false_of_length
    intro hcontra
    exact hne (List.length_eq_zero.mp hcontra)

/-- Claim C7 witness: a corrupt sidecar over a nonempty directory forces the
full re-hash. -/
theorem calculateHash_corrupt_sidecar_witness :
    CalculateHash (fun l => l) [⟨str "r\\a\\f", false, 0, [5]⟩] (str "r") (str "a")
        (some none) =
      (fun l => l) (hashStream [⟨str "r\\a\\f", false, 0, [5]⟩] (str "r") (str "a")
        (GetFileList [⟨str "r\\a\\f", false, 0, [5]⟩]
          (fullRootOf (str "r") (str "a")))) :=
  (calculateHash_corrupt_sidecar (fun l => l) [⟨str "r\\a\\f", false, 0, [5]⟩]
    (str "r") (str "a")).2 (by decide)

/-- Claim C7 counterexample: with a corrupt sidecar and an empty version
directory, `CalculateHash` returns the empty-string default, not the fresh
digest of the (empty) stream, so "performs a full content re-hash and
returns the fresh digest" fails as stated. -/
theorem calculateHash_corrupt_sidecar_counterexample :
    CalculateHash (fun _ => [120]) [] (str "r") (str "a") (some none) ≠
      (fun _ : List Nat => ([120] : Str))
        (hashStream [] (str "r") (str "a")
          (GetFileList [] (fullRootOf (str "r") (str "a")))) := by
  decide

/-- Claim C3 (amended): the sidecar fast path.  The code's `matches` check
succeeds exactly when the recorded file list equals the current on-disk file
list (same paths, same order, same length) and every recorded modification
time matches the file's current one, entries equal to `vc_dir` excluded; when
it succeeds for a parsed sidecar the stored `sha1` is returned for every
digest function and independently of every file's contents; when it fails,
the full re-hash of paths and contents is performed.  (As stated the claim is
false in one case: an absent or corrupt sidecar over an empty directory also
takes the fast path, returning the default empty string — see the
counterexample.) -/
theorem calculateHash_fast_path (root eh : Str) (fs : List FileEntry)
    (data : TimestampsData) :
    (sidecarMatches fs (fullRootOf root eh) data = true ↔
      GetFileList fs (fullRootOf root eh) = data.files.map Prod.fst ∧
      ∀ q ∈ data.files, q.1 = vcDirOf (fullRootOf root eh) ∨ getmtime fs q.1 = q.2) ∧
    (sidecarMatches fs (fullRootOf root eh) data = true →
      ∀ (h : List Nat → Str) (g : FileEntry → FileEntry),
        (∀ e, (g e).path = e.path) → (∀ e, (g e).isDir = e.isDir) →
        (∀ e, (g e).mtime = e.mtime) →
        CalculateHash h (fs.map g) root eh (some (some data)) = data.sha1) ∧
    (sidecarMatches fs (fullRootOf root eh) data = false →
      ∀ h : List Nat → Str, CalculateHash h fs root eh (some (some data)) =
        h (hashStream fs root eh (GetFileList fs (fullRootOf root eh)))) := by
  refine ⟨sidecarMatches_iff fs (fullRootOf root eh) data,
    fun hm h g hp hd hmt => ?_, fun hm h => ?_⟩
  · have hmg : sidecarMatches (fs.map g) (fullRootOf root eh) data = true := by
      rw [sidecarMatches_map_preserve g hp hd hmt]
      exact hm
    exact CalculateHash_fast h (fs.map g) root eh (some (some data)) hmg
  · exact CalculateHash_full h fs root eh (some (some data)) hm

/-- Claim C3 witness: a matching sidecar returns the stored hash even after
every file's contents are replaced (no contents are read on the fast path). -/
theorem calculateHash_fast_path_witness :
    CalculateHash (fun l => l)
        (([⟨str "r\\a\\f", false, 3, [7]⟩] : List FileEntry).map
          (fun e => { e with content := [9] }))
        (str "r") (str "a")
        (some (some (⟨[(str "r\\a\\f", 3)], str "a"⟩ : TimestampsData))) = str "a" :=
  (calculateHash_fast_path (str "r") (str "a") [⟨str "r\\a\\f", false, 3, [7]⟩]
      (⟨[(str "r\\a\\f", 3)], str "a"⟩ : TimestampsData)).2.1 (by decide) (fun l => l)
    (fun e => { e with content := [9] }) (fun e => rfl) (fun e => rfl) (fun e => rfl)

/-- Claim C3 counterexample: "in every other case it performs a full re-hash"
fails: with no sidecar at all and an empty directory (a case other than "a
sidecar exists and matches"), the cached default `''` is returned rather than
the digest of the stream. -/
theorem calculateHash_fast_path_counterexample :
    CalculateHash (fun _ => [120]) [] (str "r") (str "a") none ≠
      (fun _ : List Nat => ([120] : Str))
        (hashStream [] (str "r") (str "a")
          (GetFileList [] (fullRootOf (str "r") (str "a")))) := by
  decide

/-! ### Inserting or removing one filesystem node -/

theorem find?_middle_skip {α : Type} (l₁ l₂ : List α) (a : α) (p : α → Bool)
    (ha : p a = false) : (l₁ ++ a :: l₂).find? p = (l₁ ++ l₂).find? p := by
  induction l₁ with
  | nil =>
    simp only [List.nil_append, List.find?]
    rw [ha]
  | cons b bs ih =>
    simp only [List.cons_append, List.find?]
    cases hb : p b <;> simp [hb, ih]

theorem getmtime_middle_skip (fs₁ fs₂ : List FileEntry) (e : FileEntry) (q : Str)
    (hne : pyLower e.path ≠ pyLower q) :
    getmtime (fs₁ ++ e :: fs₂) q = getmtime (fs₁ ++ fs₂) q := by
  unfold getmtime
  rw [find?_middle_skip fs₁ fs₂ e (fun x => pyLower x.path == pyLower q)
    (beq_eq_false_iff_ne.mpr hne)]

theorem readFile_middle_skip (fs₁ fs₂ : List FileEntry) (e : FileEntry) (q : Str)
    (hne : pyLower e.path ≠ pyLower q) :
    readFile (fs₁ ++ e :: fs₂) q = readFile (fs₁ ++ fs₂) q := by
  unfold readFile
  rw [find?_middle_skip fs₁ fs₂ e (fun x => pyLower x.path == pyLower q)
    (beq_eq_false_iff_ne.mpr hne)]

/-- Every listed path is the lowercased path of some filesystem node. -/
theorem GetFileList_mem_exists (fs : List FileEntry) (root q : Str)
    (hq : q ∈ GetFileList fs root) : ∃ x ∈ fs, q = pyLower x.path := by
  unfold GetFileList at hq
  rw [pySorted_mem] at hq
  obtain ⟨y, hy, rfl⟩ := List.mem_map.mp hq
  unfold rawFileList at hy
  obtain ⟨x, hx, rfl⟩ := List.mem_map.mp (List.mem_of_mem_filter hy)
  exact ⟨x, List.mem_of_mem_filter hx, rfl⟩

/-- On a well-formed (case-insensitively duplicate-free) filesystem, a node in
the middle has a lowered path different from every other node's. -/
theorem lowered_ne_of_nodup (fs₁ fs₂ : List FileEntry) (e x : FileEntry)
    (hn : ((fs₁ ++ e :: fs₂).map (fun a => pyLower a.path)).Nodup)
    (hx : x ∈ fs₁ ++ fs₂) : pyLower e.path ≠ pyLower x.path := by
  have hperm : List.Perm ((fs₁ ++ e :: fs₂).map (fun a => pyLower a.path))
      ((e :: (fs₁ ++ fs₂)).map (fun a => pyLower a.path)) :=
    List.perm_middle.map _
  have hn2 := hperm.nodup hn
  simp only [List.map_cons, List.nodup_cons] at hn2
  intro hcontra
  exact hn2.1 (hcontra ▸ List.mem_map.mpr ⟨x, hx, rfl⟩)

/-- Dropping a WER-marked file node from the middle leaves `GetFileList`
unchanged. -/
theorem GetFileList_middle_wer (fs₁ fs₂ : List FileEntry) (e : FileEntry) (r : Str)
    (hw : strInfix werMarker e.path = true) :
    GetFileList (fs₁ ++ e :: fs₂) r = GetFileList (fs₁ ++ fs₂) r := by
  unfold GetFileList
  rw [rawFileList_append, rawFileList_cons_drop e fs₂ r (Or.inr (Or.inr hw)),
    rawFileList_append]

/-- Claim C8: a file whose path contains the crash-report marker
`'WER\\ReportQueue'` is excluded from the enumerated file list, never appears
in it, and its presence or absence changes neither `CalculateHash` (for any
digest function, any expected hash and any sidecar state) nor the recorded
sidecar data. -/
theorem werFile_never_contributes (fs₁ fs₂ : List FileEntry) (e : FileEntry)
    (root : Str) (hw : strInfix werMarker e.path = true)
    (hn : ((fs₁ ++ e :: fs₂).map (fun a => pyLower a.path)).Nodup) :
    (∀ r : Str, GetFileList (fs₁ ++ e :: fs₂) r = GetFileList (fs₁ ++ fs₂) r) ∧
    (∀ r : Str, pyLower e.path ∉ GetFileList (fs₁ ++ e :: fs₂) r) ∧
    (∀ (h : List Nat → Str) (eh : Str) (sc : SidecarSlot),
      CalculateHash h (fs₁ ++ e :: fs₂) root eh sc =
        CalculateHash h (fs₁ ++ fs₂) root eh sc) ∧
    (∀ sha1 : Str, mkTimestampsData (fs₁ ++ e :: fs₂) root sha1 =
      mkTimestampsData (fs₁ ++ fs₂) root sha1) := by
  have hfl : ∀ r : Str, GetFileList (fs₁ ++ e :: fs₂) r = GetFileList (fs₁ ++ fs₂) r :=
    fun r => GetFileList_middle_wer fs₁ fs₂ e r hw
  have hnotmem : ∀ r : Str, pyLower e.path ∉ GetFileList (fs₁ ++ e :: fs₂) r := by
    intro r hmem
    rw [hfl r] at hmem
    obtain ⟨x, hx, hxq⟩ := GetFileList_mem_exists _ _ _ hmem
    exact lowered_ne_of_nodup fs₁ fs₂ e x hn hx hxq
  have hget : ∀ q ∈ GetFileList (fs₁ ++ fs₂) root,
      getmtime (fs₁ ++ e :: fs₂) q = getmtime (fs₁ ++ fs₂) q := by
    intro q hq
    obtain ⟨x, hx, rfl⟩ := GetFileList_mem_exists _ _ _ hq
    exact getmtime_middle_skip fs₁ fs₂ e _
      (by rw [pyLower_idem]; exact lowered_ne_of_nodup fs₁ fs₂ e x hn hx)
  have hread : ∀ q ∈ GetFileList (fs₁ ++ fs₂) root,
      readFile (fs₁ ++ e :: fs₂) q = readFile (fs₁ ++ fs₂) q := by
    intro q hq
    obtain ⟨x, hx, rfl⟩ := GetFileList_mem_exists _ _ _ hq
    exact readFile_middle_skip fs₁ fs₂ e _
      (by rw [pyLower_idem]; exact lowered_ne_of_nodup fs₁ fs₂ e x hn hx)
  have hgetAt : ∀ r : Str, ∀ q ∈ GetFileList (fs₁ ++ fs₂) r,
      getmtime (fs₁ ++ e :: fs₂) q = getmtime (fs₁ ++ fs₂) q := by
    intro r q hq
    obtain ⟨x, hx, rfl⟩ := GetFileList_mem_exists _ _ _ hq
    exact getmtime_middle_skip fs₁ fs₂ e _
      (by rw [pyLower_idem]; exact lowered_ne_of_nodup fs₁ fs₂ e x hn hx)
  have hreadAt : ∀ r : Str, ∀ q ∈ GetFileList (fs₁ ++ fs₂) r,
      readFile (fs₁ ++ e :: fs₂) q = readFile (fs₁ ++ fs₂) q := by
    intro r q hq
    obtain ⟨x, hx, rfl⟩ := GetFileList_mem_exists _ _ _ hq
    exact readFile_middle_skip fs₁ fs₂ e _
      (by rw [pyLower_idem]; exact lowered_ne_of_nodup fs₁ fs₂ e x hn hx)
  have hmatch : ∀ (fr : Str) (data : TimestampsData),
      sidecarMatches (fs₁ ++ e :: fs₂) fr data = sidecarMatches (fs₁ ++ fs₂) fr data := by
    intro fr data
    unfold sidecarMatches
    rw [hfl fr]
    congr 1
    apply mtimesAgree_congr
    intro p hp
    obtain ⟨a, b⟩ := p
    exact hgetAt fr a (List.of_mem_zip hp).1
  refine ⟨hfl, hnotmem, fun h eh sc => ?_, fun sha1 => ?_⟩
  · by_cases hm : sidecarMatches (fs₁ ++ fs₂) (fullRootOf root eh)
        (loadTimestampsData sc) = true
    · rw [CalculateHash_fast h _ root eh sc (by rw [hmatch]; exact hm),
        CalculateHash_fast h _ root eh sc hm]
    · rw [Bool.not_eq_true] at hm
      rw [CalculateHash_full h _ root eh sc (by rw [hmatch]; exact hm),
        CalculateHash_full h _ root eh sc hm, hfl]
      exact congrArg h (hashStream_congr _ _ root eh _ (hreadAt (fullRootOf root eh)))
  · unfold mkTimestampsData
    rw [hfl (pathJoin root sha1)]
    have hmapeq : (GetFileList (fs₁ ++ fs₂) (pathJoin root sha1)).map
          (fun f => (f, getmtime (fs₁ ++ e :: fs₂) f)) =
        (GetFileList (fs₁ ++ fs₂) (pathJoin root sha1)).map
          (fun f => (f, getmtime (fs₁ ++ fs₂) f)) :=
      List.map_congr_left fun f hf => by rw [hgetAt (pathJoin root sha1) f hf]
    rw [hmapeq]

/-- Claim C8 witness: adding a concrete WER crash-report file leaves
`CalculateHash` unchanged. -/
theorem werFile_never_contributes_witness :
    CalculateHash (fun l => l)
        ([⟨str "r\\a\\x", false, 1, [2]⟩] ++
          (⟨str "r\\a\\WER\\ReportQueue\\w", false, 9, [3]⟩ : FileEntry) :: [])
        (str "r") (str "a") none =
      CalculateHash (fun l => l) ([⟨str "r\\a\\x", false, 1, [2]⟩] ++ [])
        (str "r") (str "a") none :=
  (werFile_never_contributes [⟨str "r\\a\\x", false, 1, [2]⟩] []
      ⟨str "r\\a\\WER\\ReportQueue\\w", false, 9, [3]⟩ (str "r")
      (by decide) (by decide)).2.2.1 (fun l => l) (str "a") none

theorem sidecarMatches_length (fs : List FileEntry) (fr : Str) (data : TimestampsData)
    (hm : sidecarMatches fs fr data = true) :
    (GetFileList fs fr).length = data.files.length := by
  unfold sidecarMatches at hm
  rw [Bool.and_eq_true] at hm
  exact beq_iff_eq.mp hm.1

/-- Claim C2 (amended): for a version directory whose sidecar currently
validates, (a) changing only the modification time of the `VC` touch path
does NOT invalidate the sidecar — `CalculateHash` still returns the cached
hash; (b) changing the modification time of any other listed file (its listed
path differing from `vc_dir`) to a new value DOES invalidate it, forcing a
full re-hash; and (c) adding or removing any file under the version root
whose path does not contain the crash-report marker `'WER\\ReportQueue'`
DOES invalidate it, because the file-list cardinality comparison fails.
(Crash-report files must be excluded: they are filtered out of the file list,
so adding or removing one leaves the cardinality — and the sidecar's
validity — unchanged; see the counterexample.) -/
theorem sidecar_invalidation (root eh : Str) (data : TimestampsData)
    (fs : List FileEntry)
    (hm : sidecarMatches fs (fullRootOf root eh) data = true) :
    (∀ (t : Int) (h : List Nat → Str),
      CalculateHash h (touchPath fs (pathJoin (fullRootOf root eh) (str "VC")) t)
        root eh (some (some data)) = data.sha1) ∧
    (∀ (q : Str) (t : Int) (h : List Nat → Str),
      q ∈ GetFileList fs (fullRootOf root eh) → q ≠ vcDirOf (fullRootOf root eh) →
      t ≠ getmtime fs q →
      sidecarMatches (touchPath fs q t) (fullRootOf root eh) data = false ∧
      CalculateHash h (touchPath fs q t) root eh (some (some data)) =
        h (hashStream (touchPath fs q t) root eh
          (GetFileList fs (fullRootOf root eh)))) ∧
    (∀ (e : FileEntry) (fs₁ fs₂ : List FileEntry), fs = fs₁ ++ fs₂ →
      e.isDir = false → isUnder (fullRootOf root eh) e.path = true →
      strInfix werMarker e.path = false →
      sidecarMatches (fs₁ ++ e :: fs₂) (fullRootOf root eh) data = false) ∧
    (∀ (e : FileEntry) (fs₁ fs₂ : List FileEntry), fs = fs₁ ++ e :: fs₂ →
      e.isDir = false → isUnder (fullRootOf root eh) e.path = true →
      strInfix werMarker e.path = false →
      sidecarMatches (fs₁ ++ fs₂) (fullRootOf root eh) data = false) := by
  obtain ⟨hfst, hmt⟩ := (sidecarMatches_iff fs (fullRootOf root eh) data).mp hm
  refine ⟨fun t h => ?_, fun q t h hq hqvc ht => ?_,
    fun e fs₁ fs₂ hsplit he hu hw => ?_, fun e fs₁ fs₂ hsplit he hu hw => ?_⟩
  · exact CalculateHash_fast h _ root eh _ (sidecarMatches_touch_vc fs _ data t hm)
  · have hxex : ∃ x ∈ fs, pyLower x.path = pyLower q := by
      obtain ⟨x, hx, rfl⟩ := GetFileList_mem_exists _ _ _ hq
      exact ⟨x, hx, by rw [pyLower_idem]⟩
    have hfalse : sidecarMatches (touchPath fs q t) (fullRootOf root eh) data = false := by
      by_contra hc
      rw [Bool.not_eq_false] at hc
      obtain ⟨hfst2, hmt2⟩ := (sidecarMatches_iff _ _ _).mp hc
      obtain ⟨qd, hqd, hqd1⟩ := List.mem_map.mp (hfst ▸ hq)
      rcases hmt2 qd hqd with hv | hg
      · exact hqvc (hqd1 ▸ hv)
      · rw [hqd1, getmtime_touchPath_self fs q t hxex] at hg
        rcases hmt qd hqd with hv | hg2
        · exact hqvc (hqd1 ▸ hv)
        · rw [hqd1] at hg2
          exact ht (hg.trans hg2.symm)
    refine ⟨hfalse, ?_⟩
    rw [CalculateHash_full h _ root eh _ hfalse, GetFileList_touchPath]
  · have hlen := sidecarMatches_length fs _ data hm
    apply sidecarMatches_false_of_length
    subst hsplit
    rw [GetFileList_length, rawFileList_append] at hlen
    rw [GetFileList_length, rawFileList_append, rawFileList_cons_keep e fs₂ _ he hu hw]
    simp only [List.length_append, List.length_cons] at hlen ⊢
    omega
  · have hlen := sidecarMatches_length fs _ data hm
    apply sidecarMatches_false_of_length
    subst hsplit
    rw [GetFileList_length, rawFileList_append,
      rawFileList_cons_keep e fs₂ _ he hu hw] at hlen
    rw [GetFileList_length, rawFileList_append]
    simp only [List.length_append, List.length_cons] at hlen ⊢
    omega

/-- Claim C2 witness: in a concrete validating directory, bumping a listed
file's modification time invalidates the sidecar and forces the re-hash. -/
theorem sidecar_invalidation_witness :
    sidecarMatches
        (touchPath ([⟨str "r\\a\\VC", true, 0, []⟩, ⟨str "r\\a\\f", false, 3, [7]⟩] :
          List FileEntry) (str "r\\a\\f") 9)
        (fullRootOf (str "r") (str "a")) (⟨[(str "r\\a\\f", 3)], str "a"⟩ :
          TimestampsData) = false ∧
    CalculateHash (fun l => l)
        (touchPath ([⟨str "r\\a\\VC", true, 0, []⟩, ⟨str "r\\a\\f", false, 3, [7]⟩] :
          List FileEntry) (str "r\\a\\f") 9)
        (str "r") (str "a")
        (some (some (⟨[(str "r\\a\\f", 3)], str "a"⟩ : TimestampsData))) =
      (fun l => l) (hashStream
        (touchPath ([⟨str "r\\a\\VC", true, 0, []⟩, ⟨str "r\\a\\f", false, 3, [7]⟩] :
          List FileEntry) (str "r\\a\\f") 9)
        (str "r") (str "a")
        (GetFileList ([⟨str "r\\a\\VC", true, 0, []⟩, ⟨str "r\\a\\f", false, 3, [7]⟩] :
          List FileEntry) (fullRootOf (str "r") (str "a")))) :=
  (sidecar_invalidation (str "r") (str "a") ⟨[(str "r\\a\\f", 3)], str "a"⟩
      [⟨str "r\\a\\VC", true, 0, []⟩, ⟨str "r\\a\\f", false, 3, [7]⟩]
      (by decide)).2.1 (str "r\\a\\f") 9 (fun l => l) (by decide) (by decide) (by decide)

/-- Claim C2 counterexample: adding a crash-report file
(`...\\WER\\ReportQueue\\...`) under the version root does NOT invalidate a
matching sidecar — the cardinality comparison still succeeds and the cached
hash is still returned, so "adding or removing any file under the version
root DOES invalidate it" is false as stated. -/
theorem sidecar_invalidation_counterexample :
    sidecarMatches
        ([⟨str "r\\a\\f", false, 3, [7]⟩] ++
          (⟨str "r\\a\\WER\\ReportQueue\\w", false, 9, [3]⟩ : FileEntry) :: [])
        (fullRootOf (str "r") (str "a")) (⟨[(str "r\\a\\f", 3)], str "a"⟩ :
          TimestampsData) = true ∧
    CalculateHash (fun _ => [120])
        ([⟨str "r\\a\\f", false, 3, [7]⟩] ++
          (⟨str "r\\a\\WER\\ReportQueue\\w", false, 9, [3]⟩ : FileEntry) :: [])
        (str "r") (str "a")
        (some (some (⟨[(str "r\\a\\f", 3)], str "a"⟩ : TimestampsData))) = str "a" :=
  ⟨by decide, by decide⟩

/-! ### Path independence of the digest stream -/

theorem pyLower_sep_cons (t : Str) : pyLower (sep :: t) = sep :: pyLower t := by
  unfold pyLower
  rw [List.map_cons]
  congr 1

theorem slashToBack_sep_cons (t : Str) : slashToBack (sep :: t) = sep :: slashToBack t := by
  unfold slashToBack
  rw [List.map_cons]
  congr 1

theorem pyLower_pathJoin (a b : Str) :
    pyLower (pathJoin a b) = pathJoin (pyLower a) (pyLower b) := by
  unfold pathJoin
  rw [pyLower_append, pyLower_sep_cons]

theorem slashToBack_pathJoin (a b : Str) :
    slashToBack (pathJoin a b) = pathJoin (slashToBack a) (slashToBack b) := by
  unfold pathJoin
  rw [slashToBack_append, slashToBack_sep_cons]

theorem isUnder_pathJoin (d x : Str) : isUnder d (pathJoin d x) = true := by
  unfold isUnder pathJoin
  exact List.isPrefixOf_iff_prefix.mpr ⟨x, by simp⟩

theorem pathKeyLe_append (p x y : Str) : pathKeyLe (p ++ x) (p ++ y) = pathKeyLe x y := by
  unfold pathKeyLe
  rw [slashToBack_append, slashToBack_append, strLe_append]

theorem pathJoin_ne_nil (a b : Str) : pathJoin a b ≠ [] := by
  unfold pathJoin
  simp

theorem slashToBack_ne_nil (s : Str) (hs : s ≠ []) : slashToBack s ≠ [] := by
  unfold slashToBack
  simpa using hs

theorem pyReplace_strip_of_ne (pat rest rep : Str) (hne : pat ≠ [])
    (hs : ¬ pat <:+: rest) : pyReplace (pat ++ rest) pat rep = rep ++ rest := by
  cases pat with
  | nil => exact absurd rfl hne
  | cons p0 ptl => exact pyReplace_strip p0 ptl rep rest hs

theorem beq_append_cancel (a b c : Str) : (a ++ b == a ++ c) = (b == c) := by
  by_cases hbc : b = c
  · subst hbc
    simp
  · rw [beq_eq_false_iff_ne.mpr (fun hcontra => hbc (List.append_cancel_left hcontra)),
      beq_eq_false_iff_ne.mpr hbc]

/-- The file list of a version tree `root\\hname` (lowercase-normalized
`root` and `hname`): the WER-filtered relative paths, lowercased, sorted, and
re-prefixed with the version directory. -/
theorem GetFileList_mkVersionFS (root hname : Str) (rel : List (Str × Int × List Nat))
    (hrootL : pyLower root = root) (hL : pyLower hname = hname) :
    GetFileList (mkVersionFS root hname rel) (pathJoin root hname) =
      (pySorted pathKeyLe
        ((rel.filter (fun r =>
          !strInfix werMarker (pathJoin (pathJoin root hname) r.1))).map
            (fun r => sep :: pyLower r.1))).map
        (fun x => pathJoin root hname ++ x) := by
  unfold GetFileList rawFileList mkVersionFS
  have h1 : (rel.map (fun r =>
        (⟨pathJoin (pathJoin root hname) r.1, false, r.2.1, r.2.2⟩ : FileEntry))).filter
        (fun e => !e.isDir && isUnder (pathJoin root hname) e.path) =
      rel.map (fun r =>
        (⟨pathJoin (pathJoin root hname) r.1, false, r.2.1, r.2.2⟩ : FileEntry)) := by
    rw [List.filter_eq_self]
    intro e he
    obtain ⟨r, _, rfl⟩ := List.mem_map.mp he
    simp [isUnder_pathJoin]
  rw [h1]
  have h2 : ((rel.map (fun r => pathJoin (pathJoin root hname) r.1)).filter
        (fun x => !strInfix werMarker x)) =
      (rel.filter (fun r =>
        !strInfix werMarker (pathJoin (pathJoin root hname) r.1))).map
        (fun r => pathJoin (pathJoin root hname) r.1) := by
    rw [List.filter_map]
    rfl
  have h2' : (rel.map (fun r =>
        (⟨pathJoin (pathJoin root hname) r.1, false, r.2.1, r.2.2⟩ : FileEntry))).map
        ((fun e : FileEntry => e.path)) = rel.map (fun r => pathJoin (pathJoin root hname) r.1) := by
    rw [List.map_map]
    rfl
  rw [h2', h2, List.map_map]
  have h3 : (rel.filter (fun r =>
        !strInfix werMarker (pathJoin (pathJoin root hname) r.1))).map
        (pyLower ∘ fun r => pathJoin (pathJoin root hname) r.1) =
      ((rel.filter (fun r =>
        !strInfix werMarker (pathJoin (pathJoin root hname) r.1))).map
          (fun r => sep :: pyLower r.1)).map
        (fun x => pathJoin root hname ++ x) := by
    rw [List.map_map]
    apply List.map_congr_left
    intro r _
    simp only [Function.comp_apply]
    rw [pyLower_pathJoin, pyLower_pathJoin, hrootL, hL]
    rfl
  rw [h3]
  exact pySorted_map _ pathKeyLe pathKeyLe (fun a b => pathKeyLe_append _ a b) _

/-- Reading a file of a version tree by its normalized listed path finds the
first `rel` entry with that lowered relative path — an expression independent
of the version-directory name. -/
theorem readFile_mkVersionFS (root hname : Str) (rel : List (Str × Int × List Nat))
    (hrootL : pyLower root = root) (hL : pyLower hname = hname) (x : Str)
    (hx : pyLower x = x) :
    readFile (mkVersionFS root hname rel) (pathJoin root hname ++ (sep :: x)) =
      ((rel.find? (fun r => pyLower r.1 == x)).map (fun r => r.2.2)).getD [] := by
  unfold readFile mkVersionFS
  rw [find?_map]
  have hpred : (fun r : Str × Int × List Nat =>
      pyLower ((⟨pathJoin (pathJoin root hname) r.1, false, r.2.1, r.2.2⟩ :
        FileEntry)).path == pyLower (pathJoin root hname ++ (sep :: x))) =
      (fun r => pyLower r.1 == x) := by
    funext r
    show (pyLower (pathJoin (pathJoin root hname) r.1) ==
      pyLower (pathJoin root hname ++ (sep :: x))) = _
    rw [pyLower_pathJoin, pyLower_pathJoin, hrootL, hL, pyLower_append,
      pyLower_pathJoin, hrootL, hL, pyLower_sep_cons, hx]
    show ((pathJoin root hname ++ sep :: pyLower r.1) ==
      (pathJoin root hname ++ sep :: x)) = _
    rw [beq_append_cancel]
    by_cases hrx : pyLower r.1 = x
    · rw [hrx]
      simp
    · rw [beq_eq_false_iff_ne.mpr (fun hc => hrx (by simpa using hc)),
        beq_eq_false_iff_ne.mpr hrx]
  rw [hpred]
  cases hf : rel.find? (fun r => pyLower r.1 == x) <;> simp

theorem flatMap_map_congr {α β γ : Type} (gA gB : α → β) (FA FB : β → List γ)
    (S : List α) (hpt : ∀ x ∈ S, FA (gA x) = FB (gB x)) :
    (S.map gA).flatMap FA = (S.map gB).flatMap FB := by
  induction S with
  | nil => rfl
  | cons x xs ih =>
    simp only [List.map_cons, List.flatMap_cons]
    rw [hpt x (List.mem_cons_self _ _), ih (fun y hy => hpt y (List.mem_cons_of_mem _ hy))]

/-- Claim C1 (amended): path-independence of the content hash.  For a file
set `rel` with identical relative structure and identical contents placed
under two parent-directory names `hA` and `hB`, `CalculateHash` produces the
same result for both copies, for every digest function — the paths are
lowercased, the `root\\name` parent segment is stripped, and the files are
fed in the same sorted order with the same contents.  The equality needs the
normalization to actually strip the prefix, hence the hypotheses: `root`,
`hA`, `hB` are fixed by lowercasing (the strip pattern is not lowercased, so
an uppercase name is never stripped — see the counterexample); the WER
crash-report filter classifies corresponding files identically; and the
`root\\name` pattern does not reoccur inside any file's normalized relative
path (Python `replace` would also rewrite such an occurrence). -/
theorem calculateHash_path_independent (hFn : List Nat → Str) (root hA hB : Str)
    (rel : List (Str × Int × List Nat))
    (hrootL : pyLower root = root) (hAL : pyLower hA = hA) (hBL : pyLower hB = hB)
    (hAne : hA ≠ []) (hBne : hB ≠ [])
    (hwer : ∀ r ∈ rel, strInfix werMarker (pathJoin (pathJoin root hA) r.1) =
        strInfix werMarker (pathJoin (pathJoin root hB) r.1))
    (hstripA : ∀ r ∈ rel,
      ¬ slashToBack (pathJoin root hA) <:+: sep :: slashToBack (pyLower r.1))
    (hstripB : ∀ r ∈ rel,
      ¬ slashToBack (pathJoin root hB) <:+: sep :: slashToBack (pyLower r.1)) :
    CalculateHash hFn (mkVersionFS root hA rel) root hA none =
      CalculateHash hFn (mkVersionFS root hB rel) root hB none := by
  have hfrA : fullRootOf root hA = pathJoin root hA := if_pos hAne
  have hfrB : fullRootOf root hB = pathJoin root hB := if_pos hBne
  have hfiltB : rel.filter
        (fun r => !strInfix werMarker (pathJoin (pathJoin root hB) r.1)) =
      rel.filter (fun r => !strInfix werMarker (pathJoin (pathJoin root hA) r.1)) :=
    List.filter_congr (fun r hr => by rw [hwer r hr])
  have hGA := GetFileList_mkVersionFS root hA rel hrootL hAL
  have hGB := GetFileList_mkVersionFS root hB rel hrootL hBL
  rw [hfiltB] at hGB
  have hmAB : sidecarMatches (mkVersionFS root hA rel) (fullRootOf root hA)
      (loadTimestampsData none) =
      sidecarMatches (mkVersionFS root hB rel) (fullRootOf root hB)
      (loadTimestampsData none) := by
    show sidecarMatches _ _ ⟨[], []⟩ = sidecarMatches _ _ ⟨[], []⟩
    unfold sidecarMatches
    rw [hfrA, hfrB, hGA, hGB]
    simp [mtimesAgree, List.length_map]
  by_cases hm : sidecarMatches (mkVersionFS root hA rel) (fullRootOf root hA)
      (loadTimestampsData none) = true
  · rw [CalculateHash_fast hFn _ root hA none hm,
      CalculateHash_fast hFn _ root hB none (by rw [← hmAB]; exact hm)]
  · rw [Bool.not_eq_true] at hm
    rw [CalculateHash_full hFn _ root hA none hm,
      CalculateHash_full hFn _ root hB none (by rw [← hmAB]; exact hm)]
    apply congrArg hFn
    rw [hfrA, hfrB, hGA, hGB]
    unfold hashStream
    apply flatMap_map_congr
    intro x hx
    obtain ⟨r, hrF, rfl⟩ := List.mem_map.mp ((pySorted_mem _ _ _).mp hx)
    have hr : r ∈ rel := List.mem_of_mem_filter hrF
    simp only [hashPathBytes, if_pos hAne, if_pos hBne]
    rw [slashToBack_append, slashToBack_sep_cons, slashToBack_append,
      slashToBack_sep_cons]
    rw [pyReplace_strip_of_ne (slashToBack (pathJoin root hA))
        (sep :: slashToBack (pyLower r.1)) root
        (slashToBack_ne_nil _ (pathJoin_ne_nil root hA)) (hstripA r hr),
      pyReplace_strip_of_ne (slashToBack (pathJoin root hB))
        (sep :: slashToBack (pyLower r.1)) root
        (slashToBack_ne_nil _ (pathJoin_ne_nil root hB)) (hstripB r hr)]
    rw [readFile_mkVersionFS root hA rel hrootL hAL (pyLower r.1) (pyLower_idem r.1),
      readFile_mkVersionFS root hB rel hrootL hBL (pyLower r.1) (pyLower_idem r.1)]

/-- Claim C1 witness: two concrete copies of the same single-file set (with
an uppercase relative filename, exercising the lowercasing) under the
lowercase parent names `a` and `b` hash to the same stream result. -/
theorem calculateHash_path_independent_witness :
    CalculateHash (fun l => l)
        (mkVersionFS (str "r") (str "a") [(str "F", 3, [7])]) (str "r") (str "a") none =
      CalculateHash (fun l => l)
        (mkVersionFS (str "r") (str "b") [(str "F", 3, [7])]) (str "r") (str "b") none :=
  calculateHash_path_independent (fun l => l) (str "r") (str "a") (str "b")
    [(str "F", 3, [7])] (by decide) (by decide) (by decide) (by decide) (by decide)
    (by decide) (by decide) (by decide)

/-- Claim C1 counterexample: the claim as stated quantifies over arbitrary
parent-directory names, but an uppercase parent name is never stripped: the
walked paths are lowercased while the strip pattern
`os.path.join(root, expected_hash)` is not, so the two digests differ even
for identical relative structure and contents (parents `A` versus `b`). -/
theorem calculateHash_path_independent_counterexample :
    CalculateHash (fun l => l)
        (mkVersionFS (str "r") (str "A") [(str "f", 0, [7])]) (str "r") (str "A") none ≠
      CalculateHash (fun l => l)
        (mkVersionFS (str "r") (str "b") [(str "f", 0, [7])]) (str "r") (str "b") none := by
  decide

/-! ### Eviction: membership bookkeeping -/

theorem find?_filter_of_keep {α : Type} (p keep : α → Bool) (l : List α)
    (hk : ∀ a ∈ l, p a = true → keep a = true) :
    (l.filter keep).find? p = l.find? p := by
  induction l with
  | nil => rfl
  | cons a rest ih =>
    have ih' := ih (fun x hx hp => hk x (List.mem_cons_of_mem _ hx) hp)
    by_cases hpa : p a = true
    · rw [List.filter_cons, if_pos (hk a (List.mem_cons_self _ _) hpa),
        List.find?_cons_of_pos _ hpa, List.find?_cons_of_pos _ hpa]
    · rw [Bool.not_eq_true] at hpa
      cases hka : keep a
      · rw [List.filter_cons, if_neg (by simp [hka]), ih',
          List.find?_cons_of_neg _ (by simp [hpa])]
      · rw [List.filter_cons, if_pos hka, List.find?_cons_of_neg _ (by simp [hpa]),
          List.find?_cons_of_neg _ (by simp [hpa]), ih']

theorem mem_fs_foldl_remove (root : Str) (names : List Str) (w : World) (e : FileEntry) :
    e ∈ (names.foldl (fun acc n => RemoveToolchain root n acc) w).fs ↔
      e ∈ w.fs ∧ ∀ n ∈ names,
        ¬(e.path = pathJoin root n ∨ isUnder (pathJoin root n) e.path = true) := by
  induction names generalizing w with
  | nil => simp
  | cons n ns ih =>
    rw [List.foldl_cons, ih]
    unfold RemoveToolchain
    simp only [List.mem_filter, List.mem_cons, Bool.not_eq_true', Bool.or_eq_false_iff,
      beq_eq_false_iff_ne]
    constructor
    · rintro ⟨⟨he, hn1, hn2⟩, hrest⟩
      refine ⟨he, fun m hm => ?_⟩
      rcases hm with rfl | hm
      · rintro (hc | hc)
        · exact hn1 hc
        · rw [hc] at hn2
          cases hn2
      · exact hrest m hm
    · rintro ⟨he, hall⟩
      have hn := hall n (Or.inl rfl)
      push_neg at hn
      refine ⟨⟨he, hn.1, Bool.not_eq_true _ ▸ hn.2⟩, fun m hm => hall m (Or.inr hm)⟩

theorem lookupSidecar_foldl_remove (root : Str) (names : List Str) (w : World) (q : Str)
    (hq : q ∉ names) :
    lookupSidecar (names.foldl (fun acc n => RemoveToolchain root n acc) w).sidecars q =
      lookupSidecar w.sidecars q := by
  induction names generalizing w with
  | nil => rfl
  | cons n ns ih =>
    rw [List.foldl_cons, ih _ (fun hc => hq (List.mem_cons_of_mem _ hc))]
    unfold lookupSidecar RemoveToolchain
    rw [find?_filter_of_keep]
    intro s _ hs
    have hsq : s.1 = q := by simpa using hs
    have hqn : q ≠ n := fun hc => hq (hc ▸ List.mem_cons_self _ _)
    simp [hsq, hqn]

theorem childName_pathJoin (dir n : Str) (hn : n ≠ []) (hsep : sep ∉ n) (hsl : 47 ∉ n) :
    childName dir (pathJoin dir n) = some n := by
  unfold childName
  have hdrop : (pathJoin dir n).drop (dir.length + 1) = n := by
    unfold pathJoin
    rw [show dir ++ sep :: n = (dir ++ [sep]) ++ n by simp,
      show dir.length + 1 = (dir ++ [sep]).length by simp, List.drop_left]
  rw [if_pos, hdrop, if_pos ⟨hn, hsep, hsl⟩]
  exact List.isPrefixOf_iff_prefix.mpr ⟨n, by simp [pathJoin]⟩

theorem childName_eq_some (dir p n : Str) (hc : childName dir p = some n) :
    p = pathJoin dir n ∧ n ≠ [] ∧ sep ∉ n ∧ 47 ∉ n := by
  unfold childName at hc
  by_cases h1 : (dir ++ [sep]).isPrefixOf p = true
  · rw [if_pos h1] at hc
    by_cases h2 : p.drop (dir.length + 1) ≠ [] ∧ sep ∉ p.drop (dir.length + 1) ∧
        47 ∉ p.drop (dir.length + 1)
    · rw [if_pos h2] at hc
      obtain ⟨t, ht⟩ := List.isPrefixOf_iff_prefix.mp h1
      have hdrop : p.drop (dir.length + 1) = t := by
        rw [← ht, show dir.length + 1 = (dir ++ [sep]).length by simp, List.drop_left]
      rw [hdrop] at hc h2
      cases hc
      refine ⟨?_, h2⟩
      rw [← ht]
      simp [pathJoin]
    · rw [if_neg h2] at hc
      cases hc
  · rw [if_neg h1] at hc
    cases hc

theorem mem_listdir (fs : List FileEntry) (root : Str) (n : Str) (e : FileEntry) :
    (n, e) ∈ listdir fs root ↔ e ∈ fs ∧ childName root e.path = some n := by
  unfold listdir
  rw [List.mem_filterMap]
  constructor
  · rintro ⟨a, ha, hma⟩
    rw [Option.map_eq_some'] at hma
    obtain ⟨m, hm, heq⟩ := hma
    cases heq
    exact ⟨ha, hm⟩
  · rintro ⟨he, hc⟩
    exact ⟨e, he, by rw [hc]; rfl⟩

/-- Unpacking membership in `expiredOf`. -/
theorem mem_expiredOf (now : Int) (w : World) (root : Str) (n : Str) :
    n ∈ expiredOf now w root ↔ ∃ d ∈ withSidecarOf w root, d.1 = n ∧
      now - getmtime w.fs (pathJoin (pathJoin root d.1) (str "VC")) >
        toolchainExpirationTime := by
  unfold expiredOf
  simp only [List.mem_map, List.mem_filter]
  constructor
  · rintro ⟨t, ⟨⟨d, hd, rfl⟩, hcond⟩, rfl⟩
    exact ⟨d, hd, rfl, by simpa using hcond⟩
  · rintro ⟨d, hd, rfl, hcond⟩
    exact ⟨(getmtime w.fs (pathJoin (pathJoin root d.1) (str "VC")), d.1),
      ⟨⟨d, hd, rfl⟩, by simpa using hcond⟩, rfl⟩

/-- Unpacking membership in `dirsToRemoveOf`. -/
theorem mem_dirsToRemoveOf (w : World) (root : Str) (n : Str) :
    n ∈ dirsToRemoveOf w root ↔ ∃ e, (n, e) ∈ listdir w.fs root ∧ e.isDir = true ∧
      (lookupSidecar w.sidecars n).isSome = false := by
  unfold dirsToRemoveOf
  simp only [List.mem_map, List.mem_filter]
  constructor
  · rintro ⟨d, ⟨hd, hcond⟩, rfl⟩
    rw [Bool.and_eq_true] at hcond
    exact ⟨d.2, hd, hcond.1, by simpa using hcond.2⟩
  · rintro ⟨e, he, hdir, hsc⟩
    exact ⟨(n, e), ⟨he, by simp [hdir, hsc]⟩, rfl⟩

/-- Unpacking membership in `withSidecarOf`. -/
theorem mem_withSidecarOf (w : World) (root : Str) (n : Str) (e : FileEntry) :
    (n, e) ∈ withSidecarOf w root ↔ (n, e) ∈ listdir w.fs root ∧ e.isDir = true ∧
      (lookupSidecar w.sidecars n).isSome = true := by
  unfold withSidecarOf
  rw [List.mem_filter]
  simp [Bool.and_eq_true]

theorem prefix_append_cancel {α : Type} (A u v : List α) (h : (A ++ u) <+: (A ++ v)) :
    u <+: v := by
  obtain ⟨t, ht⟩ := h
  exact ⟨t, List.append_cancel_left (by rw [← List.append_assoc]; exact ht)⟩

theorem pathJoin_right_inj (root m n : Str) (h : pathJoin root m = pathJoin root n) :
    m = n := by
  unfold pathJoin at h
  have h2 := List.append_cancel_left h
  simpa using h2

/-- Claim C4: the eviction policy.  `RemoveUnusedToolchains` (a) removes
every top-level plain file of the cache root, (b) removes every top-level
directory lacking a sidecar regardless of its age, and (c) removes a
sidecar-bearing version directory if and only if its `VC` touch
subdirectory's modification time is more than `60*60*24*30` seconds before
`now` — it never removes a sidecar-bearing directory inside the retention
window.  (Hypotheses: every sidecar-bearing directory has its `VC` node — or
`os.path.getmtime` would raise — and paths are duplicate-free.) -/
theorem removeUnusedToolchains_spec (now : Int) (root : Str) (w : World)
    (hvc : ∀ p ∈ withSidecarOf w root,
      entryExists w.fs (pathJoin (pathJoin root p.1) (str "VC")) = true)
    (hnodup : (w.fs.map (fun e => e.path)).Nodup) :
    RemoveUnusedToolchains now root w = some (evictResultW now root w) ∧
    ∀ p ∈ listdir w.fs root,
      (p.2.isDir = false → p.2 ∉ (evictResultW now root w).fs) ∧
      (p.2.isDir = true → (lookupSidecar w.sidecars p.1).isSome = false →
        p.2 ∉ (evictResultW now root w).fs) ∧
      (p.2.isDir = true → (lookupSidecar w.sidecars p.1).isSome = true →
        (p.2 ∈ (evictResultW now root w).fs ↔
          ¬(now - getmtime w.fs (pathJoin (pathJoin root p.1) (str "VC")) >
            toolchainExpirationTime))) := by
  constructor
  · have hguard : (withSidecarOf w root).any
        (fun d => !entryExists w.fs (pathJoin (pathJoin root d.1) (str "VC"))) = false := by
      rw [List.any_eq_false]
      intro d hd
      simp [hvc d hd]
    simp [RemoveUnusedToolchains, hguard]
  · intro p hp
    obtain ⟨n, e⟩ := p
    rw [mem_listdir] at hp
    obtain ⟨he, hcn⟩ := hp
    obtain ⟨hpath, hnne, hnsep, hnsl⟩ := childName_eq_some root e.path n hcn
    have hinj : ∀ x ∈ w.fs, x.path = e.path → x = e := fun x hx hxe =>
      List.inj_on_of_nodup_map hnodup hx he hxe
    have hnotUnder : ∀ m : Str, isUnder (pathJoin root m) e.path ≠ true := by
      intro m hc
      unfold isUnder at hc
      rw [List.isPrefixOf_iff_prefix] at hc
      rw [hpath] at hc
      have hshape : (pathJoin root m ++ [sep]) = (root ++ [sep]) ++ (m ++ [sep]) := by
        simp [pathJoin]
      have hshape2 : pathJoin root n = (root ++ [sep]) ++ n := by
        simp [pathJoin]
      rw [hshape, hshape2] at hc
      have hpre := prefix_append_cancel _ _ _ hc
      exact hnsep (hpre.subset (List.mem_append.mpr (Or.inr (List.mem_singleton.mpr rfl))))
    simp only [evictResultW]
    refine ⟨?_, ?_, ?_⟩
    · intro hdir hmem
      rw [mem_fs_foldl_remove] at hmem
      have hm1 := List.mem_filter.mp hmem.1
      have hany : ((listdir w.fs root).filter (fun d => !d.2.isDir)).any
          (fun d => d.2 == e) = true := by
        rw [List.any_eq_true]
        refine ⟨(n, e), List.mem_filter.mpr ⟨mem_listdir _ _ _ _ |>.mpr ⟨he, hcn⟩,
          by simp [hdir]⟩, by simp⟩
      rw [hany] at hm1
      exact absurd hm1.2 (by simp)
    · intro hdir hsc hmem
      rw [mem_fs_foldl_remove] at hmem
      have hnd : n ∈ dirsToRemoveOf w root :=
        (mem_dirsToRemoveOf w root n).mpr ⟨e, (mem_listdir _ _ _ _).mpr ⟨he, hcn⟩, hdir, hsc⟩
      exact (hmem.2 n (List.mem_append.mpr (Or.inl hnd))) (Or.inl hpath)
    · intro hdir hsc
      constructor
      · intro hmem hexp
        rw [mem_fs_foldl_remove] at hmem
        have hne : n ∈ expiredOf now w root :=
          (mem_expiredOf now w root n).mpr ⟨(n, e),
            (mem_withSidecarOf w root n e).mpr ⟨(mem_listdir _ _ _ _).mpr ⟨he, hcn⟩,
              hdir, hsc⟩, rfl, hexp⟩
        exact (hmem.2 n (List.mem_append.mpr (Or.inr hne))) (Or.inl hpath)
      · intro hnexp
        rw [mem_fs_foldl_remove]
        constructor
        · rw [List.mem_filter]
          refine ⟨he, ?_⟩
          have hany : ((listdir w.fs root).filter (fun d => !d.2.isDir)).any
              (fun d => d.2 == e) = false := by
            rw [List.any_eq_false]
            rintro ⟨m, x⟩ hmx
            rw [List.mem_filter] at hmx
            intro hbeq
            have hxe : x = e := by simpa using hbeq
            rw [hxe, hdir] at hmx
            exact absurd hmx.2 (by simp)
          rw [hany]
          rfl
        · intro m hm
          rintro (hc | hc)
          · have hmn : m = n := pathJoin_right_inj root m n (by rw [← hc, hpath])
            subst hmn
            rcases List.mem_append.mp hm with hmd | hme
            · obtain ⟨e', he', hdir', hsc'⟩ := (mem_dirsToRemoveOf w root m).mp hmd
              rw [mem_listdir] at he'
              have hpe' : e'.path = e.path :=
                (childName_eq_some root e'.path m he'.2).1.trans hpath.symm
              have := hinj e' he'.1 hpe'
              subst this
              rw [hsc] at hsc'
              cases hsc'
            · obtain ⟨d, hd, hdm, hcond⟩ := (mem_expiredOf now w root m).mp hme
              rw [hdm] at hcond
              exact hnexp hcond
          · exact hnotUnder m hc

/-- Claim C4 witness: in the concrete cache root, the orphan directory is
removed while the recently used sidecar-bearing version survives. -/
theorem removeUnusedToolchains_spec_witness :
    (⟨str "r\\o", true, 0, []⟩ : FileEntry) ∉ (evictResultW 2592002 (str "r") c4World).fs ∧
    (⟨str "r\\g", true, 0, []⟩ : FileEntry) ∈ (evictResultW 2592002 (str "r") c4World).fs := by
  have H := removeUnusedToolchains_spec 2592002 (str "r") c4World (by decide) (by decide)
  exact ⟨(H.2 (str "o", ⟨str "r\\o", true, 0, []⟩) (by decide)).2.1 rfl (by decide),
    ((H.2 (str "g", ⟨str "r\\g", true, 0, []⟩) (by decide)).2.2 rfl (by decide)).mpr
      (by decide)⟩

/-! ### The acquisition flow: hash-mismatch path -/

theorem vsVersionPhase_shape (now : Int) (root desired : Str) (w : World)
    (ph : World × List Nat × Str)
    (hph : vsVersionPhase now root desired w = some ph) :
    ph.1.sidecars = w.sidecars ∧ ph.1.dataJson = w.dataJson ∧
      (ph.1.fs = touchPath w.fs (pathJoin (pathJoin root desired) (str "VC")) now ∨
        ph.1.fs = w.fs) := by
  unfold vsVersionPhase at hph
  by_cases h1 : fileExistsW w.fs (pathJoin (pathJoin root desired) (str "VS_VERSION")) = true
  · rw [if_pos h1] at hph
    by_cases h2 : entryExists w.fs (pathJoin (pathJoin root desired) (str "VC")) = true
    · rw [if_pos h2] at hph
      cases hph
      exact ⟨rfl, rfl, Or.inl rfl⟩
    · rw [if_neg h2] at hph
      cases hph
  · rw [if_neg h1] at hph
    cases hph
    exact ⟨rfl, rfl, Or.inr rfl⟩

theorem entryExists_touchPath (fs : List FileEntry) (p q : Str) (t : Int) :
    entryExists (touchPath fs p t) q = entryExists fs q := by
  unfold entryExists touchPath
  induction fs with
  | nil => rfl
  | cons a rest ih =>
    simp only [List.map_cons, List.any_cons, ih]
    congr 1
    split <;> rfl

/-- One run of the flow on the out-of-date, bucket-accessible path whose
post-extraction verification misses the desired hash: the run stops with exit
code 1 right after the `data.json` write. -/
theorem acquireFlow_mismatch (h : List Nat → Str) (now : Int) (root desired : Str)
    (access : AccessEnv) (download : List RelEntry) (w₀ : World)
    (ph : World × List Nat × Str)
    (hbucket : access.bucket = true)
    (hnotinst : desired ∉ CalculateToolchainHashes h w₀.fs w₀.sidecars root)
    (hphase : vsVersionPhase now root desired (extractTree root desired download w₀) =
      some ph)
    (hmismatch : desired ∉ CalculateToolchainHashes h
      (writeDataJson root desired ph.2.1 ph.2.2 ph.1).fs
      (writeDataJson root desired ph.2.1 ph.2.2 ph.1).sidecars root) :
    acquireFlow h now root desired access download w₀ =
      some ⟨writeDataJson root desired ph.2.1 ph.2.2 ph.1, 1, true⟩ := by
  obtain ⟨w1, vsv, sdk⟩ := ph
  unfold acquireFlow
  rw [if_neg hnotinst, hbucket]
  simp only [Bool.or_true, Bool.not_true, Bool.false_eq_true, if_false]
  unfold finishPhase
  rw [hphase]
  simp only
  rw [if_pos trivial, if_neg hmismatch]

/-- Claim C6: hash-mismatch handling.  When a new toolchain was downloaded
and extracted and the recomputed set of installed hashes does not contain the
desired hash, the flow exits with code 1, writes no sidecar (the sidecar
store is exactly the initial one), and leaves every extracted file on disk —
the extracted directory is not deleted or evicted. -/
theorem hash_mismatch_fatal (h : List Nat → Str) (now : Int) (root desired : Str)
    (access : AccessEnv) (download : List RelEntry) (w₀ : World)
    (ph : World × List Nat × Str)
    (hbucket : access.bucket = true)
    (hnotinst : desired ∉ CalculateToolchainHashes h w₀.fs w₀.sidecars root)
    (hphase : vsVersionPhase now root desired (extractTree root desired download w₀) =
      some ph)
    (hmismatch : desired ∉ CalculateToolchainHashes h
      (writeDataJson root desired ph.2.1 ph.2.2 ph.1).fs
      (writeDataJson root desired ph.2.1 ph.2.2 ph.1).sidecars root) :
    acquireFlow h now root desired access download w₀ =
      some ⟨writeDataJson root desired ph.2.1 ph.2.2 ph.1, 1, true⟩ ∧
    (writeDataJson root desired ph.2.1 ph.2.2 ph.1).sidecars = w₀.sidecars ∧
    ∀ r ∈ download, entryExists (writeDataJson root desired ph.2.1 ph.2.2 ph.1).fs
      (pathJoin (pathJoin root desired) r.rpath) = true := by
  obtain ⟨hsc, _, hfs⟩ := vsVersionPhase_shape now root desired _ ph hphase
  refine ⟨acquireFlow_mismatch h now root desired access download w₀ ph hbucket
    hnotinst hphase hmismatch, hsc, fun r hr => ?_⟩
  have hbase : entryExists (extractTree root desired download w₀).fs
      (pathJoin (pathJoin root desired) r.rpath) = true := by
    unfold entryExists extractTree
    rw [List.any_eq_true]
    refine ⟨⟨pathJoin (pathJoin root desired) r.rpath, r.isDir, r.mtime, r.content⟩,
      List.mem_append.mpr (Or.inr (List.mem_map.mpr ⟨r, hr, rfl⟩)), by simp⟩
  show entryExists ph.1.fs (pathJoin (pathJoin root desired) r.rpath) = true
  rcases hfs with hfs | hfs
  · rw [hfs, entryExists_touchPath]
    exact hbase
  · rw [hfs]
    exact hbase

/-- Claim C6 witness: a concrete empty cache, bucket access, and a download
whose extraction does not produce the desired hash. -/
theorem hash_mismatch_fatal_witness :
    acquireFlow (fun _ => []) 5 (str "r") (str "a") ⟨false, false, true⟩
        [⟨str "f", false, 0, [7]⟩] ⟨[], [], none⟩ =
      some ⟨writeDataJson (str "r") (str "a") (str "2013") (str "win8sdk")
        (extractTree (str "r") (str "a") [⟨str "f", false, 0, [7]⟩] ⟨[], [], none⟩),
        1, true⟩ :=
  (hash_mismatch_fatal (fun _ => []) 5 (str "r") (str "a") ⟨false, false, true⟩
    [⟨str "f", false, 0, [7]⟩] ⟨[], [], none⟩
    (extractTree (str "r") (str "a") [⟨str "f", false, 0, [7]⟩] ⟨[], [], none⟩,
      str "2013", str "win8sdk")
    rfl (by decide) (by decide) (by decide)).1

/-- Claim C10: the combined metadata file is written, and the touch
subdirectory's modification time updated, before the post-install hash
verification runs; on the mismatch exit (code 1) the `data.json` slot already
points at the unverified install directory and `VC` is already touched. -/
theorem metadata_written_before_verification (h : List Nat → Str) (now : Int)
    (root desired : Str) (access : AccessEnv) (download : List RelEntry) (w₀ : World)
    (hbucket : access.bucket = true)
    (hnotinst : desired ∉ CalculateToolchainHashes h w₀.fs w₀.sidecars root)
    (hvsv : fileExistsW (extractTree root desired download w₀).fs
      (pathJoin (pathJoin root desired) (str "VS_VERSION")) = true)
    (hvc : entryExists (extractTree root desired download w₀).fs
      (pathJoin (pathJoin root desired) (str "VC")) = true)
    (hmismatch : desired ∉ CalculateToolchainHashes h
      (writeDataJson root desired
        (pyStrip (readFile (extractTree root desired download w₀).fs
          (pathJoin (pathJoin root desired) (str "VS_VERSION")))) (str "win_sdk")
        { extractTree root desired download w₀ with
          fs := touchPath (extractTree root desired download w₀).fs
            (pathJoin (pathJoin root desired) (str "VC")) now }).fs
      (writeDataJson root desired
        (pyStrip (readFile (extractTree root desired download w₀).fs
          (pathJoin (pathJoin root desired) (str "VS_VERSION")))) (str "win_sdk")
        { extractTree root desired download w₀ with
          fs := touchPath (extractTree root desired download w₀).fs
            (pathJoin (pathJoin root desired) (str "VC")) now }).sidecars root) :
    ∃ res : RunResult,
      acquireFlow h now root desired access download w₀ = some res ∧
      res.exitCode = 1 ∧
      res.world.dataJson = some ⟨pathJoin root desired,
        pyStrip (readFile (extractTree root desired download w₀).fs
          (pathJoin (pathJoin root desired) (str "VS_VERSION"))),
        pathJoin (pathJoin root desired) (str "win_sdk")⟩ ∧
      getmtime res.world.fs (pathJoin (pathJoin root desired) (str "VC")) = now := by
  have hphase : vsVersionPhase now root desired (extractTree root desired download w₀) =
      some ({ extractTree root desired download w₀ with
          fs := touchPath (extractTree root desired download w₀).fs
            (pathJoin (pathJoin root desired) (str "VC")) now },
        pyStrip (readFile (extractTree root desired download w₀).fs
          (pathJoin (pathJoin root desired) (str "VS_VERSION"))), str "win_sdk") := by
    unfold vsVersionPhase
    rw [if_pos hvsv, if_pos hvc]
  refine ⟨_, acquireFlow_mismatch h now root desired access download w₀ _ hbucket
    hnotinst hphase hmismatch, rfl, rfl, ?_⟩
  show getmtime (touchPath (extractTree root desired download w₀).fs
    (pathJoin (pathJoin root desired) (str "VC")) now)
    (pathJoin (pathJoin root desired) (str "VC")) = now
  apply getmtime_touchPath_self
  unfold entryExists at hvc
  rw [List.any_eq_true] at hvc
  obtain ⟨e, he, hpe⟩ := hvc
  exact ⟨e, he, by simpa using hpe⟩

/-- Claim C10 witness: a concrete mismatching download containing
`VS_VERSION` and `VC`; on the failure exit the metadata already points at the
unverified directory and `VC` carries the fresh timestamp. -/
theorem metadata_written_before_verification_witness :
    ∃ res : RunResult,
      acquireFlow (fun _ => []) 5 (str "r") (str "a") ⟨false, false, true⟩
        [⟨str "VS_VERSION", false, 0, str "2015"⟩, ⟨str "VC", true, 0, []⟩]
        ⟨[], [], none⟩ = some res ∧
      res.exitCode = 1 ∧
      res.world.dataJson = some ⟨pathJoin (str "r") (str "a"),
        pyStrip (readFile (extractTree (str "r") (str "a")
          [⟨str "VS_VERSION", false, 0, str "2015"⟩, ⟨str "VC", true, 0, []⟩]
          ⟨[], [], none⟩).fs
          (pathJoin (pathJoin (str "r") (str "a")) (str "VS_VERSION"))),
        pathJoin (pathJoin (str "r") (str "a")) (str "win_sdk")⟩ ∧
      getmtime res.world.fs (pathJoin (pathJoin (str "r") (str "a")) (str "VC")) = 5 :=
  metadata_written_before_verification (fun _ => []) 5 (str "r") (str "a")
    ⟨false, false, true⟩
    [⟨str "VS_VERSION", false, 0, str "2015"⟩, ⟨str "VC", true, 0, []⟩]
    ⟨[], [], none⟩ rfl (by decide) (by decide) (by decide) (by decide)

/-! ### Idempotence of acquisition: groundwork -/

theorem pathJoin_assoc (a b c : Str) :
    pathJoin (pathJoin a b) c = pathJoin a (b ++ sep :: c) := by
  simp [pathJoin]

/-- A separator-free name whose `name\\` is a prefix of `d ++ sep :: rest`
with separator-free `d` must equal `d`. -/
theorem sep_free_prefix_eq (n d rest : Str) (hn : sep ∉ n) (hd : sep ∉ d)
    (hpre : (n ++ [sep]) <+: (d ++ sep :: rest)) : n = d := by
  induction n generalizing d with
  | nil =>
    cases d with
    | nil => rfl
    | cons c d' =>
      rw [List.nil_append, List.cons_append] at hpre
      have hsc := (List.cons_prefix_cons.mp hpre).1
      have hd2 : ¬sep = c ∧ sep ∉ d' := by simpa using hd
      exact absurd hsc hd2.1
  | cons a n' ih =>
    cases d with
    | nil =>
      rw [List.cons_append, List.nil_append] at hpre
      have hsc := (List.cons_prefix_cons.mp hpre).1
      have hn2 : ¬sep = a ∧ sep ∉ n' := by simpa using hn
      exact absurd hsc.symm hn2.1
    | cons c d' =>
      rw [List.cons_append, List.cons_append] at hpre
      obtain ⟨hac, hrest⟩ := List.cons_prefix_cons.mp hpre
      have hn' : sep ∉ n' := fun hc => hn (List.mem_cons_of_mem _ hc)
      have hd' : sep ∉ d' := fun hc => hd (List.mem_cons_of_mem _ hc)
      rw [hac, ih d' hn' hd' hrest]

/-- A path strictly below a child of `dir` has no child name. -/
theorem childName_none_of_sep (dir s : Str) (hs : sep ∈ s) :
    childName dir (pathJoin dir s) = none := by
  unfold childName
  have hdrop : (pathJoin dir s).drop (dir.length + 1) = s := by
    unfold pathJoin
    rw [show dir ++ sep :: s = (dir ++ [sep]) ++ s by simp,
      show dir.length + 1 = (dir ++ [sep]).length by simp, List.drop_left]
  by_cases h1 : (dir ++ [sep]).isPrefixOf (pathJoin dir s) = true
  · rw [if_pos h1, hdrop, if_neg]
    rintro ⟨-, hnosep, -⟩
    exact hnosep hs
  · rw [if_neg h1]

theorem World_eta_fs (w : World) (f : List FileEntry) (hf : w.fs = f) :
    ({ w with fs := f } : World) = w := by
  cases w
  simp_all

theorem World_eta_dataJson (w : World) (d : Option DataRecord) (hd : w.dataJson = d) :
    ({ w with dataJson := d } : World) = w := by
  cases w
  simp_all

theorem touchPath_eq_self (fs : List FileEntry) (p : Str) (t : Int)
    (hall : ∀ e ∈ fs, pyLower e.path = pyLower p → e.mtime = t) :
    touchPath fs p t = fs := by
  unfold touchPath
  induction fs with
  | nil => rfl
  | cons a rest ih =>
    rw [List.map_cons, ih (fun e he hp => hall e (List.mem_cons_of_mem _ he) hp)]
    congr 1
    by_cases hap : (pyLower a.path == pyLower p) = true
    · rw [if_pos hap]
      have := hall a (List.mem_cons_self _ _) (by simpa using hap)
      cases a
      simp_all
    · rw [if_neg hap]

/-- A member of a touched filesystem whose lowered path matches the touch
target carries the new mtime. -/
theorem mtime_of_mem_touchPath (fs : List FileEntry) (p : Str) (t : Int) (e : FileEntry)
    (he : e ∈ touchPath fs p t) (hpe : pyLower e.path = pyLower p) : e.mtime = t := by
  unfold touchPath at he
  obtain ⟨x, _, rfl⟩ := List.mem_map.mp he
  by_cases hxp : (pyLower x.path == pyLower p) = true
  · rw [if_pos hxp]
  · rw [if_neg hxp] at hpe ⊢
    exact absurd (by simpa using hpe) (by simpa using hxp)

theorem path_of_touchPath_mem (fs : List FileEntry) (p : Str) (t : Int) (e : FileEntry)
    (he : e ∈ touchPath fs p t) :
    ∃ x ∈ fs, e.path = x.path ∧ e.isDir = x.isDir ∧ e.content = x.content := by
  unfold touchPath at he
  obtain ⟨x, hx, rfl⟩ := List.mem_map.mp he
  refine ⟨x, hx, ?_⟩
  split <;> exact ⟨rfl, rfl, rfl⟩

theorem touchPath_map_path (fs : List FileEntry) (p : Str) (t : Int) :
    (touchPath fs p t).map (fun e => e.path) = fs.map (fun e => e.path) := by
  unfold touchPath
  rw [List.map_map]
  exact List.map_congr_left fun e _ => by simp only [Function.comp_apply]; split <;> rfl

theorem touchPath_map_lower (fs : List FileEntry) (p : Str) (t : Int) :
    (touchPath fs p t).map (fun e => pyLower e.path) = fs.map (fun e => pyLower e.path) := by
  unfold touchPath
  rw [List.map_map]
  exact List.map_congr_left fun e _ => by simp only [Function.comp_apply]; split <;> rfl

theorem fileExistsW_touchPath (fs : List FileEntry) (p q : Str) (t : Int) :
    fileExistsW (touchPath fs p t) q = fileExistsW fs q := by
  unfold fileExistsW touchPath
  rw [find?_map]
  have hpred : (fun a : FileEntry =>
      (pyLower ((if pyLower a.path == pyLower p then { a with mtime := t } else a) :
        FileEntry).path == pyLower q)) = (fun e => pyLower e.path == pyLower q) := by
    funext a
    congr 2
    split <;> rfl
  rw [hpred]
  cases hf : fs.find? (fun e => pyLower e.path == pyLower q) with
  | none => rfl
  | some e =>
    simp only [Option.map_some', Option.elim]
    split <;> rfl

theorem listdir_touchPath (fs : List FileEntry) (p : Str) (t : Int) (root : Str) :
    listdir (touchPath fs p t) root = (listdir fs root).map
      (fun d => (d.1, if pyLower d.2.path == pyLower p then { d.2 with mtime := t }
        else d.2)) := by
  unfold listdir touchPath
  rw [List.filterMap_map, List.map_filterMap]
  apply List.filterMap_congr
  intro e _
  simp only [Function.comp_apply, Option.map_map]
  by_cases hep : (pyLower e.path == pyLower p) = true
  · simp only [if_pos hep]
    cases childName root e.path with
    | none => rfl
    | some n =>
      simp [hep]
      rw [if_pos (show pyLower e.path = pyLower p by simpa using hep)]
  · simp only [if_neg hep]
    cases childName root e.path with
    | none => rfl
    | some n =>
      simp [hep]
      rw [if_neg (show ¬ pyLower e.path = pyLower p by simpa using hep)]

/-- The filesystem after the removal fold, as one filter. -/
theorem foldl_remove_fs (root : Str) (names : List Str) (w : World) :
    (names.foldl (fun acc n => RemoveToolchain root n acc) w).fs =
      w.fs.filter (fun e => names.all
        (fun n => !(e.path == pathJoin root n || isUnder (pathJoin root n) e.path))) := by
  induction names generalizing w with
  | nil =>
    rw [List.foldl_nil]
    have : ∀ e ∈ w.fs, (([] : List Str).all
        (fun n => !(e.path == pathJoin root n || isUnder (pathJoin root n) e.path))) = true :=
      fun e _ => rfl
    rw [List.filter_eq_self.mpr this]
  | cons n ns ih =>
    rw [List.foldl_cons, ih]
    show (w.fs.filter _).filter _ = _
    rw [List.filter_filter]
    apply List.filter_congr
    intro e _
    rw [List.all_cons, Bool.and_comm]

theorem sidecars_foldl_remove (root : Str) (names : List Str) (w : World) :
    (names.foldl (fun acc n => RemoveToolchain root n acc) w).sidecars =
      names.foldl (fun acc n => acc.filter (fun s => !(s.1 == n))) w.sidecars := by
  induction names generalizing w with
  | nil => rfl
  | cons n ns ih => rw [List.foldl_cons, ih]; rfl

theorem dataJson_foldl_remove (root : Str) (names : List Str) (w : World) :
    (names.foldl (fun acc n => RemoveToolchain root n acc) w).dataJson = w.dataJson := by
  induction names generalizing w with
  | nil => rfl
  | cons n ns ih =>
    rw [List.foldl_cons, ih]
    rfl

theorem dataJson_evictResultW (now : Int) (root : Str) (w : World) :
    (evictResultW now root w).dataJson = w.dataJson := by
  unfold evictResultW
  rw [dataJson_foldl_remove]

/-- Case-insensitive uniqueness: on a lowered-duplicate-free filesystem, two
nodes with the same lowered path are the same node. -/
theorem lower_inj_of_nodup (fs : List FileEntry) (x y : FileEntry)
    (hn : (fs.map (fun e => pyLower e.path)).Nodup)
    (hx : x ∈ fs) (hy : y ∈ fs) (hxy : pyLower x.path = pyLower y.path) : x = y :=
  List.inj_on_of_nodup_map hn hx hy hxy

theorem fileExistsW_of_node (fs : List FileEntry) (p : Str) (y : FileEntry)
    (hn : (fs.map (fun e => pyLower e.path)).Nodup)
    (hy : y ∈ fs) (hpath : pyLower y.path = pyLower p) (hdir : y.isDir = false) :
    fileExistsW fs p = true := by
  unfold fileExistsW
  cases hf : fs.find? (fun e => pyLower e.path == pyLower p) with
  | none =>
    have : (fs.find? (fun e => pyLower e.path == pyLower p)).isSome := by
      rw [List.find?_isSome]
      exact ⟨y, hy, by simp [hpath]⟩
    rw [hf] at this
    cases this
  | some e =>
    have hpe : pyLower e.path = pyLower p := by simpa using List.find?_some hf
    have : e = y := lower_inj_of_nodup fs e y hn (List.mem_of_find?_eq_some hf) hy
      (hpe.trans hpath.symm)
    subst this
    simp [Option.elim, hdir]

theorem entryExists_of_node (fs : List FileEntry) (p : Str) (y : FileEntry)
    (hy : y ∈ fs) (hpath : pyLower y.path = pyLower p) :
    entryExists fs p = true := by
  unfold entryExists
  rw [List.any_eq_true]
  exact ⟨y, hy, by simp [hpath]⟩

/-- Validity of an installed version makes its name appear in
`CalculateToolchainHashes`. -/
theorem mem_hashes_of_valid (h : List Nat → Str) (w : World) (root desired : Str)
    (data : TimestampsData) (eD : FileEntry)
    (heD : eD ∈ w.fs) (hpathD : eD.path = pathJoin root desired) (hdirD : eD.isDir = true)
    (hdne : desired ≠ []) (hdsep : sep ∉ desired) (hdsl : 47 ∉ desired)
    (hsc : lookupSidecar w.sidecars desired = some (some data))
    (hsha : data.sha1 = desired)
    (hval : sidecarMatches w.fs (pathJoin root desired) data = true) :
    desired ∈ CalculateToolchainHashes h w.fs w.sidecars root := by
  unfold CalculateToolchainHashes
  rw [List.mem_map]
  refine ⟨(desired, eD), List.mem_filter.mpr ⟨(mem_listdir _ _ _ _).mpr
    ⟨heD, by rw [hpathD]; exact childName_pathJoin root desired hdne hdsep hdsl⟩,
    by simpa using hdirD⟩, ?_⟩
  show CalculateHash h w.fs root desired (lookupSidecar w.sidecars desired) = desired
  rw [hsc]
  rw [CalculateHash_fast h w.fs root desired (some (some data))
    (by show sidecarMatches _ (fullRootOf root desired) data = true
        rw [show fullRootOf root desired = pathJoin root desired from if_pos hdne]
        exact hval)]
  exact hsha

/-! ### Idempotence of acquisition: survival of the installed version -/

theorem removalNames_wf (now : Int) (root : Str) (w2 : World) :
    ∀ n ∈ dirsToRemoveOf w2 root ++ expiredOf now w2 root, n ≠ [] ∧ sep ∉ n := by
  intro n hn
  rcases List.mem_append.mp hn with hd | he
  · obtain ⟨e, he', _, _⟩ := (mem_dirsToRemoveOf w2 root n).mp hd
    rw [mem_listdir] at he'
    obtain ⟨-, h2, h3, -⟩ := childName_eq_some root e.path n he'.2
    exact ⟨h2, h3⟩
  · obtain ⟨d, hd', hd1, -⟩ := (mem_expiredOf now w2 root n).mp he
    rw [mem_withSidecarOf, mem_listdir] at hd'
    obtain ⟨-, h2, h3, -⟩ := childName_eq_some root d.2.path d.1 hd'.1.2
    rw [hd1] at h2 h3
    exact ⟨h2, h3⟩

theorem desired_not_in_removal (now : Int) (root desired : Str) (w2 : World)
    (data : TimestampsData)
    (hsc : lookupSidecar w2.sidecars desired = some (some data))
    (hmt : getmtime w2.fs (pathJoin (pathJoin root desired) (str "VC")) = now) :
    desired ∉ dirsToRemoveOf w2 root ++ expiredOf now w2 root := by
  intro hmem
  rcases List.mem_append.mp hmem with hd | he
  · obtain ⟨e, _, _, hsome⟩ := (mem_dirsToRemoveOf w2 root desired).mp hd
    rw [hsc] at hsome
    cases hsome
  · obtain ⟨d, _, hd1, hcond⟩ := (mem_expiredOf now w2 root desired).mp he
    rw [hd1, hmt] at hcond
    unfold toolchainExpirationTime at hcond
    omega

/-- A node strictly below a version directory survives eviction when that
version's name is not in the removal list. -/
theorem deep_survives (now : Int) (root desired rest : Str) (w2 : World) (e : FileEntry)
    (he : e ∈ w2.fs)
    (hpath : e.path = pathJoin root (desired ++ sep :: rest))
    (hdsep : sep ∉ desired)
    (hRNdes : desired ∉ dirsToRemoveOf w2 root ++ expiredOf now w2 root) :
    e ∈ (evictResultW now root w2).fs := by
  have hcn : childName root e.path = none := by
    rw [hpath]
    exact childName_none_of_sep root _ (List.mem_append.mpr
      (Or.inr (List.mem_cons_self _ _)))
  unfold evictResultW
  rw [mem_fs_foldl_remove]
  constructor
  · show e ∈ w2.fs.filter _
    rw [List.mem_filter]
    refine ⟨he, ?_⟩
    have hany : ((listdir w2.fs root).filter (fun d => !d.2.isDir)).any
        (fun d => d.2 == e) = false := by
      rw [List.any_eq_false]
      rintro ⟨m, x⟩ hmx
      rw [List.mem_filter] at hmx
      intro hbeq
      have hxe : x = e := by simpa using hbeq
      obtain ⟨hml, -⟩ := hmx
      rw [mem_listdir] at hml
      rw [hxe, hcn] at hml
      cases hml.2
    rw [hany]
    rfl
  · intro n hn
    obtain ⟨hnne, hnsep⟩ := removalNames_wf now root w2 n hn
    rintro (hc | hc)
    · rw [hpath] at hc
      have := pathJoin_right_inj root _ _ hc
      rw [← this] at hnsep
      exact hnsep (List.mem_append.mpr (Or.inr (List.mem_cons_self _ _)))
    · unfold isUnder at hc
      rw [List.isPrefixOf_iff_prefix, hpath] at hc
      have hshape : pathJoin root n ++ [sep] = (root ++ [sep]) ++ (n ++ [sep]) := by
        simp [pathJoin]
      have hshape2 : pathJoin root (desired ++ sep :: rest) =
          (root ++ [sep]) ++ (desired ++ sep :: rest) := by
        simp [pathJoin]
      rw [hshape, hshape2] at hc
      have := sep_free_prefix_eq n desired rest hnsep hdsep (prefix_append_cancel _ _ _ hc)
      rw [this] at hn
      exact hRNdes hn

/-- The version directory itself survives eviction when its name is not in
the removal list. -/
theorem topdir_survives (now : Int) (root desired : Str) (w2 : World) (e : FileEntry)
    (he : e ∈ w2.fs)
    (hpath : e.path = pathJoin root desired) (hdir : e.isDir = true)
    (hdsep : sep ∉ desired)
    (hRNdes : desired ∉ dirsToRemoveOf w2 root ++ expiredOf now w2 root) :
    e ∈ (evictResultW now root w2).fs := by
  unfold evictResultW
  rw [mem_fs_foldl_remove]
  constructor
  · show e ∈ w2.fs.filter _
    rw [List.mem_filter]
    refine ⟨he, ?_⟩
    have hany : ((listdir w2.fs root).filter (fun d => !d.2.isDir)).any
        (fun d => d.2 == e) = false := by
      rw [List.any_eq_false]
      rintro ⟨m, x⟩ hmx
      rw [List.mem_filter] at hmx
      intro hbeq
      have hxe : x = e := by simpa using hbeq
      rw [hxe, hdir] at hmx
      exact absurd hmx.2 (by simp)
    rw [hany]
    rfl
  · intro n hn
    obtain ⟨hnne, hnsep⟩ := removalNames_wf now root w2 n hn
    rintro (hc | hc)
    · rw [hpath] at hc
      have hdn := pathJoin_right_inj root _ _ hc
      rw [hdn] at hRNdes
      exact hRNdes hn
    · unfold isUnder at hc
      rw [List.isPrefixOf_iff_prefix, hpath] at hc
      have hshape : pathJoin root n ++ [sep] = (root ++ [sep]) ++ (n ++ [sep]) := by
        simp [pathJoin]
      have hshape2 : pathJoin root desired = (root ++ [sep]) ++ desired := by
        simp [pathJoin]
      rw [hshape, hshape2] at hc
      have hsub := (prefix_append_cancel _ _ _ hc).subset
      exact hdsep (hsub (List.mem_append.mpr (Or.inr (List.mem_singleton.mpr rfl))))

/-- A surviving node's removal conditions, extracted back out. -/
theorem survivor_not_removed (now : Int) (root : Str) (w2 : World) (e : FileEntry)
    (he : e ∈ (evictResultW now root w2).fs) :
    e ∈ w2.fs ∧
    (∀ d ∈ (listdir w2.fs root).filter (fun d => !d.2.isDir), d.2 ≠ e) ∧
    ∀ n ∈ dirsToRemoveOf w2 root ++ expiredOf now w2 root,
      ¬(e.path = pathJoin root n ∨ isUnder (pathJoin root n) e.path = true) := by
  unfold evictResultW at he
  rw [mem_fs_foldl_remove] at he
  obtain ⟨he1, he2⟩ := he
  have hm := List.mem_filter.mp he1
  refine ⟨hm.1, ?_, he2⟩
  intro d hd hde
  have hany := hm.2
  rw [Bool.not_eq_true', List.any_eq_false] at hany
  exact absurd (by simp [hde]) (hany d hd)

theorem lookupSidecar_evictResultW (now : Int) (root : Str) (w2 : World) (q : Str)
    (hq : q ∉ dirsToRemoveOf w2 root ++ expiredOf now w2 root) :
    lookupSidecar (evictResultW now root w2).sidecars q = lookupSidecar w2.sidecars q := by
  unfold evictResultW
  exact lookupSidecar_foldl_remove root _ _ q hq

theorem lookupSidecar_isSome_filter (scs : SidecarStore) (keep : Str × Option TimestampsData → Bool)
    (m : Str) (h : (lookupSidecar (scs.filter keep) m).isSome = true) :
    (lookupSidecar scs m).isSome = true := by
  unfold lookupSidecar at h ⊢
  rw [Option.isSome_map'] at h ⊢
  cases hf : (scs.filter keep).find? (fun s => s.1 == m) with
  | none => rw [hf] at h; cases h
  | some s =>
    have hps := List.find?_some hf
    rw [List.find?_isSome]
    exact ⟨s, List.mem_of_mem_filter (List.mem_of_find?_eq_some hf), hps⟩

theorem lookupSidecar_isSome_foldl (names : List Str) (scs : SidecarStore) (m : Str)
    (h : (lookupSidecar (names.foldl
      (fun acc n => acc.filter (fun s => !(s.1 == n))) scs) m).isSome = true) :
    (lookupSidecar scs m).isSome = true := by
  induction names generalizing scs with
  | nil => exact h
  | cons n ns ih =>
    rw [List.foldl_cons] at h
    exact lookupSidecar_isSome_filter _ _ m (ih _ h)

theorem lookupSidecar_isSome_evict (now : Int) (root : Str) (w2 : World) (m : Str)
    (h : (lookupSidecar (evictResultW now root w2).sidecars m).isSome = true) :
    (lookupSidecar w2.sidecars m).isSome = true := by
  unfold evictResultW at h
  rw [sidecars_foldl_remove] at h
  exact lookupSidecar_isSome_foldl _ _ m h

theorem evictResultW_fs_filter (now : Int) (root : Str) (w2 : World) :
    (evictResultW now root w2).fs = w2.fs.filter (fun e =>
      (dirsToRemoveOf w2 root ++ expiredOf now w2 root).all
        (fun n => !(e.path == pathJoin root n || isUnder (pathJoin root n) e.path)) &&
      !((listdir w2.fs root).filter (fun d => !d.2.isDir)).any (fun d => d.2 == e)) := by
  unfold evictResultW
  rw [foldl_remove_fs]
  show (w2.fs.filter _).filter _ = _
  rw [List.filter_filter]

theorem GetFileList_filter_keep (fs : List FileEntry) (K : FileEntry → Bool) (root : Str)
    (hk : ∀ e ∈ fs, e.isDir = false → isUnder root e.path = true → K e = true) :
    GetFileList (fs.filter K) root = GetFileList fs root := by
  unfold GetFileList rawFileList
  have hfil : (fs.filter K).filter (fun e => !e.isDir && isUnder root e.path) =
      fs.filter (fun e => !e.isDir && isUnder root e.path) := by
    rw [List.filter_filter]
    apply List.filter_congr
    intro e he
    cases hpe : (!e.isDir && isUnder root e.path)
    · simp [hpe]
    · rw [Bool.and_eq_true] at hpe
      simp [hk e he (by simpa using hpe.1) hpe.2, hpe.1, hpe.2]
  rw [hfil]

theorem GetFileList_mem_strong (fs : List FileEntry) (root q : Str)
    (hq : q ∈ GetFileList fs root) :
    ∃ x ∈ fs, q = pyLower x.path ∧ x.isDir = false ∧ isUnder root x.path = true := by
  unfold GetFileList at hq
  rw [pySorted_mem] at hq
  obtain ⟨y, hy, rfl⟩ := List.mem_map.mp hq
  unfold rawFileList at hy
  obtain ⟨x, hx, rfl⟩ := List.mem_map.mp (List.mem_of_mem_filter hy)
  have hx1 := (List.mem_filter.mp hx).1
  have hx2 := (List.mem_filter.mp hx).2
  rw [Bool.and_eq_true] at hx2
  exact ⟨x, hx1, rfl, by simpa using hx2.1, hx2.2⟩

theorem getmtime_filter_node (fs : List FileEntry) (K : FileEntry → Bool) (q : Str)
    (y : FileEntry) (hn : (fs.map (fun e => pyLower e.path)).Nodup) (hy : y ∈ fs)
    (hpath : pyLower y.path = pyLower q) (hK : K y = true) :
    getmtime (fs.filter K) q = getmtime fs q := by
  unfold getmtime
  rw [find?_filter_of_keep]
  intro e he hbeq
  have hee : e = y := lower_inj_of_nodup fs e y hn he hy
    ((show pyLower e.path = pyLower q by simpa using hbeq).trans hpath.symm)
  rw [hee]
  exact hK

theorem readFile_filter_node (fs : List FileEntry) (K : FileEntry → Bool) (q : Str)
    (y : FileEntry) (hn : (fs.map (fun e => pyLower e.path)).Nodup) (hy : y ∈ fs)
    (hpath : pyLower y.path = pyLower q) (hK : K y = true) :
    readFile (fs.filter K) q = readFile fs q := by
  unfold readFile
  rw [find?_filter_of_keep]
  intro e he hbeq
  have hee : e = y := lower_inj_of_nodup fs e y hn he hy
    ((show pyLower e.path = pyLower q by simpa using hbeq).trans hpath.symm)
  rw [hee]
  exact hK

theorem fileExistsW_filter_node (fs : List FileEntry) (K : FileEntry → Bool) (q : Str)
    (y : FileEntry) (hn : (fs.map (fun e => pyLower e.path)).Nodup) (hy : y ∈ fs)
    (hpath : pyLower y.path = pyLower q) (hK : K y = true) :
    fileExistsW (fs.filter K) q = fileExistsW fs q := by
  unfold fileExistsW
  rw [find?_filter_of_keep]
  intro e he hbeq
  have hee : e = y := lower_inj_of_nodup fs e y hn he hy
    ((show pyLower e.path = pyLower q by simpa using hbeq).trans hpath.symm)
  rw [hee]
  exact hK

theorem mem_touchPath_of_ne (fs : List FileEntry) (p : Str) (t : Int) (e : FileEntry)
    (he : e ∈ fs) (hne : pyLower e.path ≠ pyLower p) : e ∈ touchPath fs p t := by
  unfold touchPath
  refine List.mem_map.mpr ⟨e, he, ?_⟩
  rw [if_neg (by simpa using hne)]

theorem mem_touchPath_of_match (fs : List FileEntry) (p : Str) (t : Int) (e : FileEntry)
    (he : e ∈ fs) (heq : pyLower e.path = pyLower p) :
    ({ e with mtime := t } : FileEntry) ∈ touchPath fs p t := by
  unfold touchPath
  refine List.mem_map.mpr ⟨e, he, ?_⟩
  rw [if_pos (by simpa using heq)]

theorem mem_listdir_touch (fs : List FileEntry) (p : Str) (t : Int) (root n : Str)
    (e : FileEntry) (h : (n, e) ∈ listdir (touchPath fs p t) root) :
    ∃ x, (n, x) ∈ listdir fs root ∧ e.path = x.path ∧ e.isDir = x.isDir := by
  rw [listdir_touchPath] at h
  obtain ⟨d, hd, heq⟩ := List.mem_map.mp h
  obtain ⟨d1, d2⟩ := d
  simp only [Prod.mk.injEq] at heq
  obtain ⟨rfl, rfl⟩ := heq
  refine ⟨d2, hd, ?_⟩
  constructor
  · split <;> rfl
  · split <;> rfl

theorem exists_touch_counterpart (fs : List FileEntry) (p : Str) (t : Int) (e : FileEntry)
    (he : e ∈ fs) : ∃ x ∈ touchPath fs p t, x.path = e.path ∧ x.isDir = e.isDir ∧
      x.content = e.content := by
  unfold touchPath
  refine ⟨_, List.mem_map.mpr ⟨e, he, rfl⟩, ?_⟩
  split <;> exact ⟨rfl, rfl, rfl⟩

/-- A fully settled world is a fixed point of the flow: the desired version
is installed and validates, nothing is evictable, `VC` already carries the
current instant, and `data.json` is already current, so a run only
revalidates, re-touches `VC` to the same value and rewrites the same
metadata. -/
theorem acquireFlow_settled (h : List Nat → Str) (now : Int) (root desired : Str)
    (access : AccessEnv) (download : List RelEntry) (w : World)
    (data : TimestampsData) (eD yV yC : FileEntry)
    (hdne : desired ≠ []) (hdsep : sep ∉ desired) (hdsl : 47 ∉ desired)
    (heD : eD ∈ w.fs) (hpathD : eD.path = pathJoin root desired) (hdirD : eD.isDir = true)
    (hsc : lookupSidecar w.sidecars desired = some (some data))
    (hsha : data.sha1 = desired)
    (hval : sidecarMatches w.fs (pathJoin root desired) data = true)
    (hnodup : (w.fs.map (fun e => pyLower e.path)).Nodup)
    (hyV : yV ∈ w.fs)
    (hyVpath : yV.path = pathJoin (pathJoin root desired) (str "VS_VERSION"))
    (hyVdir : yV.isDir = false)
    (hyC : yC ∈ w.fs)
    (hyCpath : yC.path = pathJoin (pathJoin root desired) (str "VC"))
    (hmtall : ∀ e ∈ w.fs,
      pyLower e.path = pyLower (pathJoin (pathJoin root desired) (str "VC")) →
      e.mtime = now)
    (hfc : (listdir w.fs root).filter (fun d => !d.2.isDir) = [])
    (hdirs : dirsToRemoveOf w root = [])
    (hexp : expiredOf now w root = [])
    (hguard : (withSidecarOf w root).any
      (fun d => !entryExists w.fs (pathJoin (pathJoin root d.1) (str "VC"))) = false)
    (hdj : w.dataJson = some ⟨pathJoin root desired,
      pyStrip (readFile w.fs (pathJoin (pathJoin root desired) (str "VS_VERSION"))),
      pathJoin (pathJoin root desired) (str "win_sdk")⟩) :
    acquireFlow h now root desired access download w = some ⟨w, 0, false⟩ := by
  have hmem : desired ∈ CalculateToolchainHashes h w.fs w.sidecars root :=
    mem_hashes_of_valid h w root desired data eD heD hpathD hdirD hdne hdsep hdsl hsc hsha hval
  have hfeV : fileExistsW w.fs (pathJoin (pathJoin root desired) (str "VS_VERSION")) = true :=
    fileExistsW_of_node w.fs _ yV hnodup hyV (by rw [hyVpath]) hyVdir
  have heC : entryExists w.fs (pathJoin (pathJoin root desired) (str "VC")) = true :=
    entryExists_of_node w.fs _ yC hyC (by rw [hyCpath])
  have htouch : touchPath w.fs (pathJoin (pathJoin root desired) (str "VC")) now = w.fs :=
    touchPath_eq_self w.fs _ now hmtall
  have hphase : vsVersionPhase now root desired w =
      some (w, pyStrip (readFile w.fs (pathJoin (pathJoin root desired) (str "VS_VERSION"))),
        str "win_sdk") := by
    unfold vsVersionPhase
    rw [if_pos hfeV, if_pos heC, htouch, World_eta_fs w w.fs rfl]
  have hwrite : writeDataJson root desired
      (pyStrip (readFile w.fs (pathJoin (pathJoin root desired) (str "VS_VERSION"))))
      (str "win_sdk") w = w := by
    unfold writeDataJson
    exact World_eta_dataJson w _ hdj
  have hevfix : evictResultW now root w = w := by
    show (dirsToRemoveOf w root ++ expiredOf now w root).foldl
        (fun acc n => RemoveToolchain root n acc)
        { w with fs := w.fs.filter (fun e =>
            !((listdir w.fs root).filter (fun d => !d.2.isDir)).any (fun d => d.2 == e)) } = w
    rw [hdirs, hexp, hfc]
    simp only [List.append_nil, List.foldl_nil, List.any_nil, Bool.not_false]
    exact World_eta_fs w _ (List.filter_eq_self.mpr (fun e _ => rfl)).symm
  have hremove : RemoveUnusedToolchains now root w = some w := by
    unfold RemoveUnusedToolchains
    rw [hguard, if_neg Bool.false_ne_true, hevfix]
  unfold acquireFlow
  rw [if_pos hmem]
  unfold finishPhase
  rw [hphase]
  show (RemoveUnusedToolchains now root (writeDataJson root desired
      (pyStrip (readFile w.fs (pathJoin (pathJoin root desired) (str "VS_VERSION"))))
      (str "win_sdk") w)).map
    (fun w4 => (⟨w4, 0, false⟩ : RunResult)) = some ⟨w, 0, false⟩
  rw [hwrite, hremove]
  rfl

/-- Claim C5 (amended): idempotence of acquisition.  When the desired hash is
already installed with a validating sidecar AND the installed version has its
`VS_VERSION` file and `VC` subdirectory (and every sidecar-bearing sibling
has a `VC` subdirectory, with all timestamps observed at the single instant
`now`), the flow exits 0 without entering the download branch, and it is
idempotent from the resulting state: the first run may still mutate the cache
(it touches `VC`, rewrites `data.json` and runs eviction), after which a
second run returns the identical state, again with exit 0 and no download. -/
theorem acquisition_idempotent (h : List Nat → Str) (now : Int) (root desired : Str)
    (access : AccessEnv) (download : List RelEntry) (w₀ : World)
    (data : TimestampsData) (eD yV yC : FileEntry)
    (hdne : desired ≠ []) (hdsep : sep ∉ desired) (hdsl : 47 ∉ desired)
    (hnodup : (w₀.fs.map (fun e => pyLower e.path)).Nodup)
    (heD : eD ∈ w₀.fs) (hpathD : eD.path = pathJoin root desired) (hdirD : eD.isDir = true)
    (hsc : lookupSidecar w₀.sidecars desired = some (some data))
    (hsha : data.sha1 = desired)
    (hval : sidecarMatches w₀.fs (pathJoin root desired) data = true)
    (hyV : yV ∈ w₀.fs)
    (hyVpath : yV.path = pathJoin (pathJoin root desired) (str "VS_VERSION"))
    (hyVdir : yV.isDir = false)
    (hyC : yC ∈ w₀.fs)
    (hyCpath : yC.path = pathJoin (pathJoin root desired) (str "VC"))
    (hvcAll : ∀ d ∈ listdir w₀.fs root, d.2.isDir = true →
      (lookupSidecar w₀.sidecars d.1).isSome = true →
      ∃ y ∈ w₀.fs, y.path = pathJoin (pathJoin root d.1) (str "VC")) :
    ∃ wF : World,
      acquireFlow h now root desired access download w₀ = some ⟨wF, 0, false⟩ ∧
      acquireFlow h now root desired access download wF = some ⟨wF, 0, false⟩ := by
  have hfeV0 : fileExistsW w₀.fs (pathJoin (pathJoin root desired) (str "VS_VERSION")) = true :=
    fileExistsW_of_node w₀.fs _ yV hnodup hyV (by rw [hyVpath]) hyVdir
  have heC0 : entryExists w₀.fs (pathJoin (pathJoin root desired) (str "VC")) = true :=
    entryExists_of_node w₀.fs _ yC hyC (by rw [hyCpath])
  have hmem1 : desired ∈ CalculateToolchainHashes h w₀.fs w₀.sidecars root :=
    mem_hashes_of_valid h w₀ root desired data eD heD hpathD hdirD hdne hdsep hdsl hsc hsha hval
  have hphase1 : vsVersionPhase now root desired w₀ =
      some ({ w₀ with fs := touchPath w₀.fs (pathJoin (pathJoin root desired) (str "VC")) now },
        pyStrip (readFile w₀.fs (pathJoin (pathJoin root desired) (str "VS_VERSION"))),
        str "win_sdk") := by
    unfold vsVersionPhase
    rw [if_pos hfeV0, if_pos heC0]
  obtain ⟨w2, hw2⟩ : ∃ w2, writeDataJson root desired
      (pyStrip (readFile w₀.fs (pathJoin (pathJoin root desired) (str "VS_VERSION"))))
      (str "win_sdk")
      { w₀ with fs := touchPath w₀.fs (pathJoin (pathJoin root desired) (str "VC")) now } =
        w2 := ⟨_, rfl⟩
  have hw2fs : w2.fs = touchPath w₀.fs (pathJoin (pathJoin root desired) (str "VC")) now := by
    rw [← hw2]
    rfl
  have hw2sc : w2.sidecars = w₀.sidecars := by
    rw [← hw2]
    rfl
  obtain ⟨wF, hwF⟩ : ∃ wF, evictResultW now root w2 = wF := ⟨_, rfl⟩
  have hnodup2 : (w2.fs.map (fun e => pyLower e.path)).Nodup := by
    rw [hw2fs, touchPath_map_lower]
    exact hnodup
  have hmtVC : getmtime w2.fs (pathJoin (pathJoin root desired) (str "VC")) = now := by
    rw [hw2fs]
    exact getmtime_touchPath_self w₀.fs _ now ⟨yC, hyC, by rw [hyCpath]⟩
  have hval2 : sidecarMatches w2.fs (pathJoin root desired) data = true := by
    rw [hw2fs]
    exact sidecarMatches_touch_vc w₀.fs (pathJoin root desired) data now hval
  have hsc2 : lookupSidecar w2.sidecars desired = some (some data) := by
    rw [hw2sc]
    exact hsc
  have hRNdes : desired ∉ dirsToRemoveOf w2 root ++ expiredOf now w2 root :=
    desired_not_in_removal now root desired w2 data hsc2 hmtVC
  have hguard1 : (withSidecarOf w2 root).any
      (fun d => !entryExists w2.fs (pathJoin (pathJoin root d.1) (str "VC"))) = false := by
    rw [List.any_eq_false]
    rintro ⟨m, x⟩ hmx
    rw [mem_withSidecarOf] at hmx
    obtain ⟨hld, hdir, hsome⟩ := hmx
    rw [hw2fs] at hld
    obtain ⟨x0, hx0, hpx0, hdx0⟩ := mem_listdir_touch w₀.fs _ now root m x hld
    rw [hw2sc] at hsome
    obtain ⟨y, hy, hyp⟩ := hvcAll (m, x0) hx0
      (show x0.isDir = true by rw [← hdx0]; exact hdir) hsome
    have hyp2 : y.path = pathJoin (pathJoin root m) (str "VC") := hyp
    intro hnot
    have hee : entryExists w2.fs (pathJoin (pathJoin root m) (str "VC")) = true := by
      rw [hw2fs, entryExists_touchPath]
      exact entryExists_of_node w₀.fs _ y hy (by rw [hyp2])
    simp [hee] at hnot
  have hremove1 : RemoveUnusedToolchains now root w2 = some wF := by
    unfold RemoveUnusedToolchains
    rw [hguard1, if_neg Bool.false_ne_true, hwF]
  have hrun1 : acquireFlow h now root desired access download w₀ = some ⟨wF, 0, false⟩ := by
    unfold acquireFlow
    rw [if_pos hmem1]
    unfold finishPhase
    rw [hphase1]
    show (RemoveUnusedToolchains now root (writeDataJson root desired
        (pyStrip (readFile w₀.fs (pathJoin (pathJoin root desired) (str "VS_VERSION"))))
        (str "win_sdk")
        { w₀ with fs := touchPath w₀.fs (pathJoin (pathJoin root desired)
            (str "VC")) now })).map
      (fun w4 => (⟨w4, 0, false⟩ : RunResult)) = some ⟨wF, 0, false⟩
    rw [hw2, hremove1]
    rfl
  have hKfs : wF.fs = w2.fs.filter (fun e =>
      (dirsToRemoveOf w2 root ++ expiredOf now w2 root).all
        (fun n => !(e.path == pathJoin root n || isUnder (pathJoin root n) e.path)) &&
      !((listdir w2.fs root).filter (fun d => !d.2.isDir)).any (fun d => d.2 == e)) := by
    rw [← hwF]
    exact evictResultW_fs_filter now root w2
  have hnodupF : (wF.fs.map (fun e => pyLower e.path)).Nodup := by
    rw [hKfs]
    exact List.Nodup.sublist ((List.filter_sublist _).map _) hnodup2
  have hkeep : ∀ e ∈ w2.fs, isUnder (pathJoin root desired) e.path = true → e ∈ wF.fs := by
    intro e he hund
    have hund' : ((pathJoin root desired ++ [sep]).isPrefixOf e.path) = true := hund
    obtain ⟨t, ht⟩ := List.isPrefixOf_iff_prefix.mp hund'
    have hpe : e.path = pathJoin root (desired ++ sep :: t) := by
      rw [← ht]
      simp [pathJoin]
    have hs := deep_survives now root desired t w2 e he hpe hdsep hRNdes
    rw [hwF] at hs
    exact hs
  have hflF : GetFileList wF.fs (pathJoin root desired) =
      GetFileList w2.fs (pathJoin root desired) := by
    rw [hKfs]
    apply GetFileList_filter_keep
    intro e he hdir hund
    have hm := hkeep e he hund
    rw [hKfs] at hm
    exact (List.mem_filter.mp hm).2
  have hgmF : ∀ q y, y ∈ w2.fs → pyLower y.path = pyLower q → y ∈ wF.fs →
      getmtime wF.fs q = getmtime w2.fs q := by
    intro q y hy hpq hyF
    rw [hKfs] at hyF ⊢
    exact getmtime_filter_node w2.fs _ q y hnodup2 hy hpq (List.mem_filter.mp hyF).2
  have hvalF : sidecarMatches wF.fs (pathJoin root desired) data = true := by
    have hcg : sidecarMatches wF.fs (pathJoin root desired) data =
        sidecarMatches w2.fs (pathJoin root desired) data := by
      unfold sidecarMatches
      rw [hflF]
      congr 1
      apply mtimesAgree_congr
      rintro ⟨a, b⟩ hab
      have ha := (List.of_mem_zip hab).1
      obtain ⟨x, hx, haeq, hxdir, hxund⟩ :=
        GetFileList_mem_strong w2.fs (pathJoin root desired) a ha
      show getmtime wF.fs a = getmtime w2.fs a
      rw [haeq]
      exact hgmF (pyLower x.path) x hx (pyLower_idem x.path).symm (hkeep x hx hxund)
    rw [hcg]
    exact hval2
  obtain ⟨eD2, heD2T, heD2p, heD2d, -⟩ := exists_touch_counterpart w₀.fs
    (pathJoin (pathJoin root desired) (str "VC")) now eD heD
  have heD2w2 : eD2 ∈ w2.fs := by
    rw [hw2fs]
    exact heD2T
  have heD2F : eD2 ∈ wF.fs := by
    have hs := topdir_survives now root desired w2 eD2 heD2w2 (by rw [heD2p, hpathD])
      (by rw [heD2d, hdirD]) hdsep hRNdes
    rw [hwF] at hs
    exact hs
  obtain ⟨yV2, hyV2T, hyV2p, hyV2d, -⟩ := exists_touch_counterpart w₀.fs
    (pathJoin (pathJoin root desired) (str "VC")) now yV hyV
  have hyV2w2 : yV2 ∈ w2.fs := by
    rw [hw2fs]
    exact hyV2T
  have hyV2F : yV2 ∈ wF.fs := hkeep yV2 hyV2w2
    (by rw [hyV2p, hyVpath]; exact isUnder_pathJoin _ _)
  obtain ⟨yC2, hyC2T, hyC2p, hyC2d, -⟩ := exists_touch_counterpart w₀.fs
    (pathJoin (pathJoin root desired) (str "VC")) now yC hyC
  have hyC2w2 : yC2 ∈ w2.fs := by
    rw [hw2fs]
    exact hyC2T
  have hyC2F : yC2 ∈ wF.fs := hkeep yC2 hyC2w2
    (by rw [hyC2p, hyCpath]; exact isUnder_pathJoin _ _)
  have hreadF : readFile wF.fs (pathJoin (pathJoin root desired) (str "VS_VERSION")) =
      readFile w₀.fs (pathJoin (pathJoin root desired) (str "VS_VERSION")) := by
    have h1 : readFile wF.fs (pathJoin (pathJoin root desired) (str "VS_VERSION")) =
        readFile w2.fs (pathJoin (pathJoin root desired) (str "VS_VERSION")) := by
      have hm := hyV2F
      rw [hKfs] at hm
      rw [hKfs]
      exact readFile_filter_node w2.fs _ _ yV2 hnodup2 hyV2w2 (by rw [hyV2p, hyVpath])
        (List.mem_filter.mp hm).2
    rw [h1, hw2fs, readFile_touchPath]
  have hscF : lookupSidecar wF.sidecars desired = some (some data) := by
    rw [← hwF, lookupSidecar_evictResultW now root w2 desired hRNdes]
    exact hsc2
  have hmtallF : ∀ e ∈ wF.fs,
      pyLower e.path = pyLower (pathJoin (pathJoin root desired) (str "VC")) →
      e.mtime = now := by
    intro e he hpe
    have hm := he
    rw [hKfs] at hm
    have he2 := List.mem_of_mem_filter hm
    rw [hw2fs] at he2
    exact mtime_of_mem_touchPath w₀.fs _ now e he2 hpe
  have hlift : ∀ m x, (m, x) ∈ listdir wF.fs root →
      (m, x) ∈ listdir w2.fs root ∧ x.isDir = true ∧
      m ∉ dirsToRemoveOf w2 root ++ expiredOf now w2 root := by
    intro m x hmx
    rw [mem_listdir] at hmx
    obtain ⟨hxw, hcn⟩ := hmx
    rw [← hwF] at hxw
    obtain ⟨hx2, hnof, hnorm⟩ := survivor_not_removed now root w2 x hxw
    have hld2 : (m, x) ∈ listdir w2.fs root := (mem_listdir _ _ _ _).mpr ⟨hx2, hcn⟩
    have hdir : x.isDir = true := by
      cases hxd : x.isDir
      · exact absurd rfl (hnof (m, x) (List.mem_filter.mpr ⟨hld2, by simp [hxd]⟩))
      · rfl
    obtain ⟨hpx, -, -, -⟩ := childName_eq_some root x.path m hcn
    exact ⟨hld2, hdir, fun hmRN => hnorm m hmRN (Or.inl hpx)⟩
  have hfcF : (listdir wF.fs root).filter (fun d => !d.2.isDir) = [] := by
    rw [List.filter_eq_nil_iff]
    rintro ⟨m, x⟩ hmx
    obtain ⟨-, hdir, -⟩ := hlift m x hmx
    simp [hdir]
  have hdirsF : dirsToRemoveOf wF root = [] := by
    have hfe : (listdir wF.fs root).filter
        (fun d => d.2.isDir && !(lookupSidecar wF.sidecars d.1).isSome) = [] := by
      rw [List.filter_eq_nil_iff]
      rintro ⟨m, x⟩ hmx
      obtain ⟨hld2, hdir, hmRN⟩ := hlift m x hmx
      intro hpred
      simp only [Bool.and_eq_true] at hpred
      have hnone : (lookupSidecar wF.sidecars m).isSome = false := by
        have h2 := hpred.2
        simpa using h2
      rw [← hwF, lookupSidecar_evictResultW now root w2 m hmRN] at hnone
      exact hmRN (List.mem_append.mpr (Or.inl
        ((mem_dirsToRemoveOf w2 root m).mpr ⟨x, hld2, hdir, hnone⟩)))
    unfold dirsToRemoveOf
    rw [hfe]
    rfl
  have hvcF : ∀ m x, (m, x) ∈ withSidecarOf wF root →
      ∃ y2, y2 ∈ wF.fs ∧ y2.path = pathJoin (pathJoin root m) (str "VC") ∧
        (m, x) ∈ listdir w2.fs root ∧ x.isDir = true ∧
        (lookupSidecar w2.sidecars m).isSome = true ∧
        m ∉ dirsToRemoveOf w2 root ++ expiredOf now w2 root := by
    intro m x hmx
    rw [mem_withSidecarOf] at hmx
    obtain ⟨hldF, hdirx, hsomeF⟩ := hmx
    obtain ⟨hld2, -, hmRN⟩ := hlift m x hldF
    have hsome2 : (lookupSidecar w2.sidecars m).isSome = true := by
      rw [← lookupSidecar_evictResultW now root w2 m hmRN, hwF]
      exact hsomeF
    have hldT : (m, x) ∈ listdir
        (touchPath w₀.fs (pathJoin (pathJoin root desired) (str "VC")) now) root := by
      rw [← hw2fs]
      exact hld2
    obtain ⟨x0, hx0, hpx0, hdx0⟩ := mem_listdir_touch w₀.fs _ now root m x hldT
    have hsome0 : (lookupSidecar w₀.sidecars m).isSome = true := by
      rw [← hw2sc]
      exact hsome2
    obtain ⟨y, hy, hyp⟩ := hvcAll (m, x0) hx0
      (show x0.isDir = true by rw [← hdx0]; exact hdirx) hsome0
    have hyp2 : y.path = pathJoin (pathJoin root m) (str "VC") := hyp
    obtain ⟨y2, hy2T, hy2p, -, -⟩ := exists_touch_counterpart w₀.fs
      (pathJoin (pathJoin root desired) (str "VC")) now y hy
    have hy2w2 : y2 ∈ w2.fs := by
      rw [hw2fs]
      exact hy2T
    have hcn2 : childName root x.path = some m := ((mem_listdir _ _ _ _).mp hld2).2
    obtain ⟨-, -, hmsep, -⟩ := childName_eq_some root x.path m hcn2
    have hy2path : y2.path = pathJoin root (m ++ sep :: str "VC") := by
      rw [hy2p, hyp2, pathJoin_assoc]
    have hy2F : y2 ∈ wF.fs := by
      have hs := deep_survives now root m (str "VC") w2 y2 hy2w2 hy2path hmsep hmRN
      rw [hwF] at hs
      exact hs
    exact ⟨y2, hy2F, by rw [hy2p]; exact hyp2, hld2, hdirx, hsome2, hmRN⟩
  have hexpF : expiredOf now wF root = [] := by
    have hfe : ((withSidecarOf wF root).map
        (fun d => (getmtime wF.fs (pathJoin (pathJoin root d.1) (str "VC")), d.1))).filter
        (fun t => now - t.1 > toolchainExpirationTime) = [] := by
      rw [List.filter_eq_nil_iff]
      intro t ht
      obtain ⟨d, hd, rfl⟩ := List.mem_map.mp ht
      obtain ⟨m, x⟩ := d
      obtain ⟨y2, hy2F, hy2p, hld2, hdirx, hsome2, hmRN⟩ := hvcF m x hd
      have hy2w2 : y2 ∈ w2.fs := by
        have hm2 := hy2F
        rw [hKfs] at hm2
        exact List.mem_of_mem_filter hm2
      have hgm : getmtime wF.fs (pathJoin (pathJoin root m) (str "VC")) =
          getmtime w2.fs (pathJoin (pathJoin root m) (str "VC")) :=
        hgmF _ y2 hy2w2 (by rw [hy2p]) hy2F
      show ¬(decide (now - getmtime wF.fs (pathJoin (pathJoin root m) (str "VC")) >
        toolchainExpirationTime) = true)
      rw [decide_eq_true_eq, hgm]
      intro hcond
      exact hmRN (List.mem_append.mpr (Or.inr ((mem_expiredOf now w2 root m).mpr
        ⟨(m, x), (mem_withSidecarOf w2 root m x).mpr ⟨hld2, hdirx, hsome2⟩, rfl, hcond⟩)))
    unfold expiredOf
    rw [hfe]
    rfl
  have hguardF : (withSidecarOf wF root).any
      (fun d => !entryExists wF.fs (pathJoin (pathJoin root d.1) (str "VC"))) = false := by
    rw [List.any_eq_false]
    rintro ⟨m, x⟩ hmx
    obtain ⟨y2, hy2F, hy2p, -, -, -, -⟩ := hvcF m x hmx
    intro hnot
    have hee : entryExists wF.fs (pathJoin (pathJoin root m) (str "VC")) = true :=
      entryExists_of_node wF.fs _ y2 hy2F (by rw [hy2p])
    simp [hee] at hnot
  have hdjF : wF.dataJson = some ⟨pathJoin root desired,
      pyStrip (readFile wF.fs (pathJoin (pathJoin root desired) (str "VS_VERSION"))),
      pathJoin (pathJoin root desired) (str "win_sdk")⟩ := by
    rw [hreadF, ← hwF, dataJson_evictResultW, ← hw2]
    rfl
  refine ⟨wF, hrun1, ?_⟩
  exact acquireFlow_settled h now root desired access download wF data eD2 yV2 yC2
    hdne hdsep hdsl heD2F (by rw [heD2p, hpathD]) (by rw [heD2d, hdirD]) hscF hsha hvalF
    hnodupF hyV2F (by rw [hyV2p, hyVpath]) (by rw [hyV2d, hyVdir]) hyC2F
    (by rw [hyC2p, hyCpath]) hmtallF hfcF hdirsF hexpF hguardF hdjF

/-- Claim C5 witness: a concrete settled cache on which the flow is
idempotent. -/
theorem acquisition_idempotent_witness :
    ∃ wF : World,
      acquireFlow (fun _ => []) 9 (str "r") (str "a") ⟨false, false, false⟩ []
          c5GoodWorld = some ⟨wF, 0, false⟩ ∧
      acquireFlow (fun _ => []) 9 (str "r") (str "a") ⟨false, false, false⟩ []
          wF = some ⟨wF, 0, false⟩ :=
  acquisition_idempotent (fun _ => []) 9 (str "r") (str "a") ⟨false, false, false⟩ []
    c5GoodWorld ⟨[(str "r\\a\\vs_version", 5)], str "a"⟩
    ⟨str "r\\a", true, 0, []⟩ ⟨str "r\\a\\VS_VERSION", false, 5, str "2017"⟩
    ⟨str "r\\a\\VC", true, 7, []⟩
    (by decide) (by decide) (by decide) (by decide) (by decide) (by decide) (by decide)
    (by decide) (by decide) (by decide) (by decide) (by decide) (by decide) (by decide)
    (by decide) (by decide)

/-- Claim C5 counterexample: `c5OldWorld` holds version `a` with a sidecar
that validates, yet the first run (exit 0, no download branch) evicts the
installation — there is no `VS_VERSION` file, so `VC` is never touched and
the 30-day window has lapsed — and the second run finds nothing installed,
enters the download/probe branch and exits 1.  The literal claim that the
second run is a pure no-op with no network access is false. -/
theorem acquisition_idempotent_counterexample :
    sidecarMatches c5OldWorld.fs (pathJoin (str "r") (str "a"))
        ⟨[(str "r\\a\\f", 3)], str "a"⟩ = true ∧
    lookupSidecar c5OldWorld.sidecars (str "a") =
        some (some ⟨[(str "r\\a\\f", 3)], str "a"⟩) ∧
    acquireFlow (fun _ => []) 2592002 (str "r") (str "a") ⟨false, false, false⟩ []
        c5OldWorld = some ⟨c5EvictedWorld, 0, false⟩ ∧
    acquireFlow (fun _ => []) 2592002 (str "r") (str "a") ⟨false, false, false⟩ []
        c5EvictedWorld = some ⟨c5EvictedWorld, 1, true⟩ ∧
    entryExists c5EvictedWorld.fs (pathJoin (str "r") (str "a")) = false := by
  decide

end WinToolchain
